import Mathlib

/-!
Verification of the extraction-orchestrator core of the ai-extraction-system
repository, as a shallow embedding in Lean.

Python data values are modelled by the inductive type JValue; Python dicts are
association lists in insertion order (duplicate keys are collapsed exactly as a
dict would, keeping the first position and the last written value).  Python
floats are idealized as exact rationals.  External primitives (the tiktoken
token counter, the regex engine, the jsonschema validator and the OpenAI
oracle) are parameters of the embedded functions.
-/

set_option maxHeartbeats 1000000

/-- A Python/JSON value.  vNull models Python None. -/
inductive JValue where
  | vNull
  | vBool (b : Bool)
  | vInt (n : ℤ)
  | vFloat (q : ℚ)
  | vStr (s : String)
  | vList (xs : List JValue)
  | vObj (fields : List (String × JValue))

namespace JValue

/-- x is None -/
def isNull : JValue → Bool
  | vNull => true
  | _ => false

/-- Python numeric interpretation: bool is a subclass of int, so True and
False are the numbers 1 and 0. -/
def numVal? : JValue → Option ℚ
  | vBool b => some (if b then 1 else 0)
  | vInt n => some (n : ℚ)
  | vFloat q => some q
  | _ => none

/-- isinstance(x, str) -/
def isPyStr : JValue → Bool
  | vStr _ => true
  | _ => false

/-- isinstance(x, (int, float)): true for bool, int and float, because bool is
a subclass of int in Python. -/
def isPyNumeric : JValue → Bool
  | vBool _ => true
  | vInt _ => true
  | vFloat _ => true
  | _ => false

/-- isinstance(x, list) -/
def isPyList : JValue → Bool
  | vList _ => true
  | _ => false

/-- isinstance(x, bool) -/
def isPyBool : JValue → Bool
  | vBool _ => true
  | _ => false

/-- isinstance(x, dict) -/
def isPyDict : JValue → Bool
  | vObj _ => true
  | _ => false

/-- isinstance(x, int): bool is a subclass of int. -/
def isPyInt : JValue → Bool
  | vBool _ => true
  | vInt _ => true
  | _ => false

end JValue

mutual
/-- Python == on values: numbers (bool included) compare by numeric value,
strings by content, lists pointwise.  Dicts are compared in key order here;
the embedded code never compares two dicts with differently ordered keys. -/
def pyEq : JValue → JValue → Bool
  | .vNull, .vNull => true
  | .vStr a, .vStr b => a == b
  | .vList a, .vList b => pyEqList a b
  | .vObj a, .vObj b => pyEqObj a b
  | v, w =>
    match v.numVal?, w.numVal? with
    | some a, some b => decide (a = b)
    | _, _ => false

def pyEqList : List JValue → List JValue → Bool
  | [], [] => true
  | x :: xs, y :: ys => pyEq x y && pyEqList xs ys
  | _, _ => false

def pyEqObj : List (String × JValue) → List (String × JValue) → Bool
  | [], [] => true
  | (k, x) :: xs, (k', y) :: ys => k == k' && pyEq x y && pyEqObj xs ys
  | _, _ => false
end

/-- Lookup in a Python dict modelled as an association list. -/
def pyLookup {α : Type} : List (String × α) → String → Option α
  | [], _ => none
  | (k', v) :: rest, k => if k' = k then some v else pyLookup rest k

/-- Python dict assignment d[k] = v: overwrite in place, else append. -/
def upsert {α : Type} : List (String × α) → String → α → List (String × α)
  | [], k, v => [(k, v)]
  | (k', v') :: rest, k, v =>
    if k' = k then (k, v) :: rest else (k', v') :: upsert rest k v

/-- Python dict(items): duplicate keys keep the first position, last value. -/
def dictOf {α : Type} (l : List (String × α)) : List (String × α) :=
  l.foldl (fun acc kv => upsert acc kv.1 kv.2) []

/-- Python str.split on the character '.' at the character-list level. -/
def splitOnDot : List Char → List (List Char)
  | [] => [[]]
  | c :: rest =>
    if c = '.' then [] :: splitOnDot rest
    else
      match splitOnDot rest with
      | [] => [[c]]
      | g :: gs => (c :: g) :: gs

/-- path.split('.') as in utils.get_nested_value / set_nested_value. -/
def splitDots (s : String) : List String :=
  (splitOnDot s.data).map fun l => ⟨l⟩

/-- The f-string key join used throughout: f-prefix.key if the prefix is
non-empty (truthy), else the bare key. -/
def dotJoin (parent k : String) : String :=
  if parent = "" then k else parent ++ "." ++ k

/-- Join path components with dots (inverse of splitDots on dot-free parts). -/
def joinDots : List String → String
  | [] => ""
  | [s] => s
  | s :: rest => s ++ "." ++ joinDots rest

/-! ## utils.py: nested access -/

/-- Inner loop of utils.get_nested_value: walk dot-path keys, returning None
(vNull) when a key is missing or an intermediate value is not a dict. -/
def getNested : JValue → List String → JValue
  | cur, [] => cur
  | .vObj fs, k :: rest =>
    match pyLookup fs k with
    | some v => getNested v rest
    | none => .vNull
  | _, _ :: _ => .vNull

/-- utils.get_nested_value with default None. -/
def getNestedValue (data : List (String × JValue)) (path : String) : JValue :=
  getNested (.vObj data) (splitDots path)

/-- utils.set_nested_value.  Walking into an existing non-dict intermediate
value makes Python raise (TypeError); that is modelled by the error case. -/
def setNested : List (String × JValue) → List String → JValue →
    Except String (List (String × JValue))
  | fs, [], _ => .ok fs
  | fs, [k], v => .ok (upsert fs k v)
  | fs, k :: rest, v =>
    match pyLookup fs k with
    | none => do
      let sub ← setNested [] rest v
      .ok (upsert fs k (.vObj sub))
    | some (.vObj sub) => do
      let sub' ← setNested sub rest v
      .ok (upsert fs k (.vObj sub'))
    | some _ => .error "TypeError: intermediate value is not a dict"

mutual
/-- utils.merge_dicts_deep: result starts as a copy of d1; keys of d2 are
written over it in order, recursing when both sides hold dicts. -/
def mergeDictsDeep : List (String × JValue) → List (String × JValue) →
    List (String × JValue)
  | d1, [] => d1
  | d1, (k, v) :: rest => mergeDictsDeep (mergeDictsDeepOne d1 k v) rest

/-- One key write of merge_dicts_deep. -/
def mergeDictsDeepOne : List (String × JValue) → String → JValue →
    List (String × JValue)
  | d1, k, .vObj sub2 =>
    match pyLookup d1 k with
    | some (.vObj sub1) => upsert d1 k (.vObj (mergeDictsDeep sub1 sub2))
    | _ => upsert d1 k (.vObj sub2)
  | d1, k, v => upsert d1 k v
end

/-! ## Schema metrics, complexity score and strategy
(schema_analyzer.SchemaAnalyzer.analyze_complexity, _calculate_complexity_score,
_determine_strategy).  The metrics record carries the values computed by
analyze_complexity; estimate_schema_tokens is the external tiktoken count. -/

structure SchemaMetrics where
  max_depth : ℕ
  total_fields : ℕ
  object_count : ℕ
  enum_complexity : ℕ
  estimated_tokens : ℕ
  required_fields : ℕ
deriving DecidableEq

/-- SchemaAnalyzer._calculate_complexity_score.  Python int() on the
non-negative float sum is the floor; floats are idealized as rationals. -/
def calculateComplexityScore (m : SchemaMetrics) : ℤ :=
  ⌊min 30 ((m.max_depth : ℚ) * 5) + min 25 ((m.total_fields : ℚ) / 10)
    + min 25 ((m.object_count : ℚ) * 2) + min 20 ((m.enum_complexity : ℚ) / 50)⌋

/-- SchemaAnalyzer._determine_strategy. -/
def determineStrategy (maxTokensPerChunk : ℕ) (m : SchemaMetrics) : String :=
  if m.estimated_tokens > maxTokensPerChunk then "multi_pass_chunked"
  else if m.max_depth > 1 ∨ m.object_count > 1 then "multi_pass_hierarchical"
  else "single_pass"

structure ComplexityAnalysis where
  metrics : SchemaMetrics
  complexity_score : ℤ
  strategy : String
  needs_chunking : Bool
deriving DecidableEq

/-- SchemaAnalyzer.analyze_complexity, given the computed metrics. -/
def analyzeComplexity (maxTokensPerChunk : ℕ) (m : SchemaMetrics) : ComplexityAnalysis :=
  { metrics := m
    complexity_score := calculateComplexityScore m
    strategy := determineStrategy maxTokensPerChunk m
    needs_chunking := decide (m.estimated_tokens > maxTokensPerChunk) }

/-! ## document_processor.DocumentProcessor.merge_extractions and helpers -/

/-- The confidence sub-dict {'overall': ..., 'fields': {...}}. -/
structure Confidence where
  overall : ℚ
  fields : List (String × ℚ)
deriving DecidableEq

/-- One extraction-result dict as consumed by merge_extractions or produced
per chunk by the engine.  Absent dict keys are none. -/
structure ChunkItem where
  data : List (String × JValue) := []
  confidence : Confidence := ⟨0, []⟩
  strategy : Option String := none
  total_chunks : Option ℕ := none
  token_usage : Option ℕ := none
  error : Option String := none
  chunk_id : Option ℕ := none
  priority : Option String := none

/-- The merged result dict: a ChunkItem possibly carrying chunk_results. -/
structure ExtractionResult extends ChunkItem where
  chunk_results : Option (List ChunkItem) := none

mutual
/-- Dict branch of DocumentProcessor._flatten_dict. -/
def flattenDictVal : JValue → String → List (String × JValue)
  | .vObj sub, parent => flattenDict sub parent
  | _, _ => []

/-- DocumentProcessor._flatten_dict (also ConfidenceScorer._flatten_dict). -/
def flattenDict : List (String × JValue) → String → List (String × JValue)
  | [], _ => []
  | (k, v) :: rest, parent =>
    (if v.isPyDict then flattenDictVal v (dotJoin parent k)
     else [(dotJoin parent k, v)]) ++ flattenDict rest parent
end

/-- Occurrence counting used by the numeric branch of
_resolve_field_conflict: a Python dict keyed by value (==-based). -/
def countsInsert : List (JValue × ℕ) → JValue → List (JValue × ℕ)
  | [], v => [(v, 1)]
  | (k, c) :: rest, v =>
    if pyEq k v then (k, c + 1) :: rest else (k, c) :: countsInsert rest v

def valueCounts (vals : List JValue) : List (JValue × ℕ) :=
  vals.foldl countsInsert []

/-- max(value_counts.items(), key=count): first maximal entry in dict order. -/
def maxByCount : List (JValue × ℕ) → Option JValue
  | [] => none
  | (k, c) :: rest =>
    some ((rest.foldl (fun best kv => if kv.2 > best.2 then kv else best) (k, c)).1)

/-- Python list dedup with a seen-set (membership by ==). -/
def pyDedup (l : List JValue) : List JValue :=
  (l.foldl (fun acc v => if acc.any (fun w => pyEq w v) then acc else acc ++ [v]) [])

/-- DocumentProcessor._resolve_field_conflict.  Note the branch order: the
isinstance((int, float)) test is true for booleans, so two unequal booleans
are resolved by the most-frequent rule and the boolean-or branch below it is
unreachable. -/
def resolveFieldConflict (existing new : JValue) (allValues : List JValue) : JValue :=
  if pyEq existing new then existing
  else if existing.isPyStr && new.isPyStr then
    match existing, new with
    | .vStr a, .vStr b => if a.length ≥ b.length then existing else new
    | _, _ => existing
  else if existing.isPyNumeric && new.isPyNumeric then
    match maxByCount (valueCounts allValues) with
    | some v => v
    | none => existing
  else if existing.isPyList && new.isPyList then
    match existing, new with
    | .vList a, .vList b => .vList (pyDedup (a ++ b))
    | _, _ => existing
  else if existing.isPyBool && new.isPyBool then
    match existing, new with
    | .vBool a, .vBool b => .vBool (a || b)
    | _, _ => existing
  else if new.isNull then existing
  else new

/-- The mutable per-merge bookkeeping of merge_extractions:
field_values and field_occurrences. -/
structure MergeSt where
  fieldValues : List (String × List JValue) := []
  fieldOcc : List (String × ℕ) := []

/-- Track field occurrences as in _merge_with_conflict_resolution. -/
def recordOccurrence (st : MergeSt) (k : String) (v : JValue) : MergeSt :=
  let values := (st.fieldValues.lookup k).getD []
  let occ := (st.fieldOcc.lookup k).getD 0
  { fieldValues :=
      if (st.fieldValues.lookup k).isSome then
        st.fieldValues.map fun p => if p.1 = k then (k, values ++ [v]) else p
      else st.fieldValues ++ [(k, [v])]
    fieldOcc :=
      if (st.fieldOcc.lookup k).isSome then
        st.fieldOcc.map fun p => if p.1 = k then (k, occ + 1) else p
      else st.fieldOcc ++ [(k, 1)] }

/-- DocumentProcessor._merge_with_conflict_resolution. -/
def mergeWithConflictResolution (mergedData chunkData : List (String × JValue))
    (st : MergeSt) : Except String (List (String × JValue)) × MergeSt :=
  let mergedFlat := dictOf (flattenDict mergedData "")
  let chunkFlat := dictOf (flattenDict chunkData "")
  let step := fun (acc : List (String × JValue) × MergeSt) (kv : String × JValue) =>
    let (mf, st) := acc
    if kv.2.isNull then (mf, st)
    else
      let st' := recordOccurrence st kv.1 kv.2
      match pyLookup mf kv.1 with
      | none => (upsert mf kv.1 kv.2, st')
      | some existing =>
        let allVals := (st'.fieldValues.lookup kv.1).getD []
        (upsert mf kv.1 (resolveFieldConflict existing kv.2 allVals), st')
  let (mergedFlat', st') := chunkFlat.foldl step (mergedFlat, st)
  (mergedFlat'.foldlM (fun acc kv => setNested acc (splitDots kv.1) kv.2) [], st')

/-- Loop state of merge_extractions over the chunk results. -/
structure MergeLoopSt where
  mergedData : List (String × JValue) := []
  st : MergeSt := {}
  allFieldConfidences : List (String × List ℚ) := []
  totalTokens : ℕ := 0

/-- Record one chunk's per-field confidences (append to the lists). -/
def recordConfidences (acc : List (String × List ℚ)) (fields : List (String × ℚ)) :
    List (String × List ℚ) :=
  fields.foldl
    (fun acc kv =>
      if (acc.lookup kv.1).isSome then
        acc.map fun p => if p.1 = kv.1 then (p.1, p.2 ++ [kv.2]) else p
      else acc ++ [(kv.1, [kv.2])])
    acc

/-- DocumentProcessor.merge_extractions. -/
def mergeExtractions (chunkResults : List ChunkItem) : Except String ExtractionResult :=
  match chunkResults with
  | [] =>
    .ok { data := [], confidence := ⟨0, []⟩, strategy := some "document_chunked",
          total_chunks := some 0 }
  | [r] =>
    .ok { toChunkItem :=
            { r with strategy := some "document_chunked", total_chunks := some 1 } }
  | rs => do
    let loop ← rs.foldlM
      (fun (acc : MergeLoopSt) (r : ChunkItem) => do
        let (res, st') := mergeWithConflictResolution acc.mergedData r.data acc.st
        let merged ← res
        pure { mergedData := merged
               st := st'
               allFieldConfidences := recordConfidences acc.allFieldConfidences r.confidence.fields
               totalTokens := acc.totalTokens + r.token_usage.getD 0 })
      {}
    let finalConfidences := loop.allFieldConfidences.map fun kv =>
      let avg := kv.2.sum / (kv.2.length : ℚ)
      let freqWeight := (kv.2.length : ℚ) / (rs.length : ℚ)
      (kv.1, avg * freqWeight)
    let overall :=
      if finalConfidences.isEmpty then 0
      else (finalConfidences.map Prod.snd).sum / (finalConfidences.length : ℚ)
    .ok { data := loop.mergedData
          confidence := ⟨overall, finalConfidences⟩
          strategy := some "document_chunked"
          total_chunks := some rs.length
          token_usage := some loop.totalTokens
          chunk_results := some rs }

/-! ## JSON schemas (the dict shape interpreted by the analyzers).
Only the keys the code reads are modelled; estimate_schema_tokens is kept as
an external parameter wherever it is consumed. -/

/-- The non-structural schema keys the code reads on a node. -/
structure SchemaAttrs where
  ref : Option String := none
  typ : Option String := none
  pattern : Option String := none
  enumv : Option (List JValue) := none
  required : Bool := false
  minimum : Option ℚ := none
  maximum : Option ℚ := none
  exclusiveMinimum : Option ℚ := none
  exclusiveMaximum : Option ℚ := none
  minLength : Option ℚ := none
  maxLength : Option ℚ := none

/-- A schema node: an optional properties dict (present iff the Python dict
has a properties key, possibly empty), an optional conditional sub-schema
(the if key), and the scalar attributes. -/
inductive Schema where
  | mk (props : Option (List (String × Schema))) (ifb : Option Schema)
       (attrs : SchemaAttrs)

def Schema.props : Schema → Option (List (String × Schema))
  | .mk p _ _ => p

def Schema.ifb : Schema → Option Schema
  | .mk _ i _ => i

def Schema.attrs : Schema → SchemaAttrs
  | .mk _ _ a => a

/-- Python: 'properties' in schema. -/
def Schema.hasProps : Schema → Bool
  | .mk (some _) _ _ => true
  | _ => false

/-- A leaf node carrying only attributes. -/
def leafS (a : SchemaAttrs) : Schema := .mk none none a

/-- An object node {'properties': ps}. -/
def objS (ps : List (String × Schema)) : Schema := .mk (some ps) none {}

/-! ## confidence_scorer.ConfidenceScorer.score_field and its sub-scorers -/

/-- Outcome of Python re.match(pattern, s): a match, no match, or an invalid
pattern (re.error).  The regex engine is an external primitive, so it enters
the model as a parameter producing this outcome. -/
inductive RegexOutcome where
  | matched
  | noMatch
  | invalid

/-- str.lower() (ASCII, as exercised by the code). -/
def asciiLower (s : String) : String := ⟨s.data.map Char.toLower⟩

/-- needle is an initial segment of hay. -/
def listStartsWith : List Char → List Char → Bool
  | [], _ => true
  | _ :: _, [] => false
  | a :: as, b :: bs => a == b && listStartsWith as bs

/-- needle occurs contiguously inside hay. -/
def listHasInfix (needle : List Char) : List Char → Bool
  | [] => needle.isEmpty
  | c :: rest => listStartsWith needle (c :: rest) || listHasInfix needle rest

/-- Python substring test: needle in hay. -/
def isSubstring (needle hay : String) : Bool := listHasInfix needle.data hay.data

/-- str.split() with no argument: split on whitespace runs, no empties. -/
def splitWsAux : List Char → List Char → List (List Char)
  | [], cur => if cur.isEmpty then [] else [cur.reverse]
  | c :: rest, cur =>
    if c.isWhitespace then
      if cur.isEmpty then splitWsAux rest [] else cur.reverse :: splitWsAux rest []
    else splitWsAux rest (c :: cur)

def splitWs (s : String) : List String := (splitWsAux s.data []).map fun l => ⟨l⟩

/-- Python len() for strings and lists. -/
def pyLen : JValue → Option ℕ
  | .vStr s => some s.length
  | .vList l => some l.length
  | _ => none

/-- The isinstance test of ConfidenceScorer._score_data_type's type_mapping:
booleans are instances of int, so they satisfy integer and number. -/
def pyTypeMatches (t : String) (v : JValue) : Bool :=
  if t = "string" then v.isPyStr
  else if t = "number" then v.isPyNumeric
  else if t = "integer" then v.isPyInt
  else if t = "boolean" then v.isPyBool
  else if t = "array" then v.isPyList
  else if t = "object" then v.isPyDict
  else if t = "null" then v.isNull
  else false

/-- ConfidenceScorer._score_data_type.  A falsy type key (absent or empty)
scores 1; unknown type names fall through to 0.3. -/
def scoreDataType (v : JValue) (typ : Option String) : ℚ :=
  match typ with
  | none => 1
  | some t =>
    if t = "" then 1
    else if pyTypeMatches t v then 1
    else if t = "number" && v.isPyInt then 1
    else if t = "string" && v.isPyNumeric then 8/10
    else 3/10

/-- ConfidenceScorer._score_enum_match. -/
def scoreEnumMatch (v : JValue) (enumv : Option (List JValue)) : ℚ :=
  match enumv with
  | none => 1
  | some vals =>
    if vals.any (fun e => pyEq v e) then 1
    else
      match v with
      | .vStr s =>
        if vals.any (fun e =>
            match e with
            | .vStr es => asciiLower s == asciiLower es
            | _ => false) then 9/10
        else 2/10
      | _ => 2/10

/-- ConfidenceScorer._score_pattern_match: strings only; an invalid pattern
is never penalized. -/
def scorePatternMatch (regexFn : String → String → RegexOutcome) (v : JValue)
    (pat : Option String) : ℚ :=
  match pat, v with
  | some p, .vStr s =>
    match regexFn p s with
    | .matched => 1
    | .noMatch => 4/10
    | .invalid => 1
  | _, _ => 1

/-- ConfidenceScorer._score_range_validation: each violated bound multiplies
the score by 0.3.  Booleans count as numbers (value 1 or 0). -/
def scoreRangeValidation (v : JValue) (a : SchemaAttrs) : ℚ :=
  if v.isPyNumeric then
    let q := v.numVal?.getD 0
    let s : ℚ := 1
    let s := match a.minimum with
      | some m => if q < m then s * (3/10) else s
      | none => s
    let s := match a.maximum with
      | some m => if q > m then s * (3/10) else s
      | none => s
    let s := match a.exclusiveMinimum with
      | some m => if q ≤ m then s * (3/10) else s
      | none => s
    let s := match a.exclusiveMaximum with
      | some m => if q ≥ m then s * (3/10) else s
      | none => s
    s
  else 1

/-- ConfidenceScorer._score_length_validation: each violated bound multiplies
the score by 0.5. -/
def scoreLengthValidation (v : JValue) (a : SchemaAttrs) : ℚ :=
  match pyLen v with
  | none => 1
  | some n =>
    let s : ℚ := 1
    let s := match a.minLength with
      | some m => if (n : ℚ) < m then s * (1/2) else s
      | none => s
    let s := match a.maxLength with
      | some m => if (n : ℚ) > m then s * (1/2) else s
      | none => s
    s

/-- ConfidenceScorer._score_context_relevance. -/
def scoreContextRelevance (v : JValue) (text : String) : ℚ :=
  match v with
  | .vStr s =>
    if text = "" then 1
    else
      let vl := asciiLower s
      let tl := asciiLower text
      if isSubstring vl tl then 1
      else
        let words := splitWs vl
        if words.length > 1 then
          let found := (words.filter (fun w => isSubstring w tl)).length
          1/2 + ((found : ℚ) / (words.length : ℚ)) * (1/2)
        else 7/10
  | _ => 1

/-- The extraction_context dict of score_field; only original_text is read. -/
structure ExtractionContext where
  original_text : Option String := none

/-- ConfidenceScorer.score_field: 0.0 / 0.5 for an absent required / optional
value, else the product of all factor scores clamped to [0, 1]. -/
def scoreField (regexFn : String → String → RegexOutcome) (fieldValue : JValue)
    (fieldSchema : Schema) (ctx : ExtractionContext) : ℚ :=
  if fieldValue.isNull then
    if fieldSchema.attrs.required then 0 else 1/2
  else
    let c : ℚ := 1
    let c := c * scoreDataType fieldValue fieldSchema.attrs.typ
    let c := c * scoreEnumMatch fieldValue fieldSchema.attrs.enumv
    let c := c * scorePatternMatch regexFn fieldValue fieldSchema.attrs.pattern
    let c := c * scoreRangeValidation fieldValue fieldSchema.attrs
    let c := c * scoreLengthValidation fieldValue fieldSchema.attrs
    let c := match ctx.original_text with
      | some t => c * scoreContextRelevance fieldValue t
      | none => c
    max 0 (min 1 c)

/-! ## utils.flatten_schema and schema path machinery -/

mutual
/-- utils.flatten_schema: writes (dot-path, leaf-schema) pairs in traversal
order; a node is a leaf iff it has no properties key. -/
def flattenSchemaVal : Schema → String → List (String × Schema)
  | .mk (some ps) _ _, pfx => flattenSchemaList ps pfx
  | _, _ => []

def flattenSchemaList : List (String × Schema) → String → List (String × Schema)
  | [], _ => []
  | (k, v) :: rest, pfx =>
    (if v.hasProps then flattenSchemaVal v (dotJoin pfx k)
     else [(dotJoin pfx k, v)]) ++ flattenSchemaList rest pfx
end

/-- The write keys of flatten_schema from the root. -/
def flattenKeys (s : Schema) : List String := (flattenSchemaVal s "").map Prod.fst

/-- The resulting Python dict's key set (duplicates collapsed). -/
def flattenMapKeys (s : Schema) : List String := (flattenKeys s).dedup

mutual
/-- Leaf nodes reachable from the root through properties. -/
def countLeaves : Schema → ℕ
  | .mk (some ps) _ _ => countLeavesList ps
  | _ => 0

def countLeavesList : List (String × Schema) → ℕ
  | [] => 0
  | (_, v) :: rest => (if v.hasProps then countLeaves v else 1) + countLeavesList rest
end

/-- A property name the dot-path encoding cannot confuse: non-empty and free
of dots. -/
def goodNameB (s : String) : Bool := !(s == "") && !(s.data.contains '.')

mutual
/-- All property names in the schema are good and sibling names are distinct
(distinctness is automatic for a parsed Python dict). -/
def goodSchemaB : Schema → Bool
  | .mk (some ps) _ _ => goodPropsB ps
  | _ => true

def goodPropsB : List (String × Schema) → Bool
  | [] => true
  | (k, v) :: rest =>
    goodNameB k && goodSchemaB v && !((rest.map Prod.fst).contains k) && goodPropsB rest
end

mutual
/-- flatten_schema at the level of component paths (lists of names),
mirroring flattenSchemaVal exactly. -/
def flattenPathsVal : Schema → List String → List (List String × Schema)
  | .mk (some ps) _ _, pfx => flattenPathsList ps pfx
  | _, _ => []

def flattenPathsList : List (String × Schema) → List String → List (List String × Schema)
  | [], _ => []
  | (k, v) :: rest, pfx =>
    (if v.hasProps then flattenPathsVal v (pfx ++ [k])
     else [(pfx ++ [k], v)]) ++ flattenPathsList rest pfx
end

/-- Two paths, neither of which is a prefix of the other. -/
def PathsApart (p q : List String) : Prop := ¬ p <+: q ∧ ¬ q <+: p

/-! ## schema_analyzer: dependency graph, extraction order, schema chunking -/

/-- str.replace('#/', ''): drop every occurrence, scanning left to right. -/
def replaceHashSlash : List Char → List Char
  | '#' :: '/' :: rest => replaceHashSlash rest
  | c :: rest => c :: replaceHashSlash rest
  | [] => []

/-- str.replace('/', '.'). -/
def replaceSlashDot : List Char → List Char
  | '/' :: rest => '.' :: replaceSlashDot rest
  | c :: rest => c :: replaceSlashDot rest
  | [] => []

/-- The ref-path rewrite of SchemaAnalyzer._find_dependencies. -/
def transformRef (r : String) : String :=
  ⟨replaceSlashDot (replaceHashSlash r.data)⟩

/-- SchemaAnalyzer._extract_field_references: names of every properties dict
reachable without descending into a properties dict itself.  In this model
the only nested sub-dict of a schema node is its conditional (if) schema;
enum lists hold data values, not sub-schemas. -/
def extractFieldReferences : Schema → List String
  | .mk props ifb _ =>
    (match props with
     | some ps => ps.map Prod.fst
     | none => [])
    ++ (match ifb with
        | some s => extractFieldReferences s
        | none => [])

/-- The per-field entry of SchemaAnalyzer.build_dependency_graph. -/
structure DepInfo where
  depends_on : List String
  required : Bool
  typ : String
  has_enum : Bool

/-- SchemaAnalyzer._find_dependencies. -/
def findDependencies (fieldSchema : Schema) (allFieldKeys : List String) :
    List String :=
  (match fieldSchema.attrs.ref with
   | some r =>
     let refPath := transformRef r
     if allFieldKeys.contains refPath then [refPath] else []
   | none => [])
  ++ (match fieldSchema.ifb with
      | some ifs => extractFieldReferences ifs
      | none => [])

/-- SchemaAnalyzer.build_dependency_graph. -/
def buildDependencyGraph (s : Schema) : List (String × DepInfo) :=
  let flattened := dictOf (flattenSchemaVal s "")
  flattened.map fun kv =>
    (kv.1,
     { depends_on := findDependencies kv.2 (flattened.map Prod.fst)
       required := kv.2.attrs.required
       typ := kv.2.attrs.typ.getD "unknown"
       has_enum := kv.2.attrs.enumv.isSome })

/-- dependencies.get(field, {}).get('depends_on', []). -/
def depsOf (graph : List (String × DepInfo)) (field : String) : List String :=
  match pyLookup graph field with
  | some d => d.depends_on
  | none => []

/-- The recursive visit of SchemaAnalyzer.get_extraction_order.  The mutable
visited set always equals the set of emitted fields, so only the ordered
output list is threaded; temp is the DFS stack.  The fuel bounds the
recursion depth: each nested call pushes a distinct graph key onto temp, so
depth never exceeds the number of keys and the fuel supplied by
getExtractionOrder is never exhausted. -/
def visitFuel (graph : List (String × DepInfo)) :
    ℕ → String → List String → List String → List String
  | 0, _, _, ordered => ordered
  | fuel + 1, field, temp, ordered =>
    if field ∈ temp then ordered
    else if field ∈ ordered then ordered
    else
      let ordered' := (depsOf graph field).foldl
        (fun acc dep =>
          if (graph.map Prod.fst).contains dep then
            visitFuel graph fuel dep (field :: temp) acc
          else acc)
        ordered
      ordered' ++ [field]

/-- SchemaAnalyzer.get_extraction_order. -/
def getExtractionOrder (s : Schema) : List String :=
  let graph := buildDependencyGraph s
  graph.foldl
    (fun ordered kv =>
      if kv.1 ∈ ordered then ordered
      else visitFuel graph (graph.length + 1) kv.1 [] ordered)
    []

/-- SchemaAnalyzer._get_field_schema: navigate properties along the parts,
returning the empty dict when a part is missing. -/
def getFieldSchema : Schema → List String → Schema
  | cur, [] => cur
  | cur, part :: rest =>
    match cur.props with
    | some ps =>
      match pyLookup ps part with
      | some nxt => getFieldSchema nxt rest
      | none => leafS {}
    | none => leafS {}

/-- The chunk accumulator starts as {'properties': {}}. -/
def emptyChunk : Schema := .mk (some []) none {}

/-- SchemaAnalyzer._add_field_to_chunk: walk the parts, creating
{'type': 'object', 'properties': {}} intermediates (and a properties key on
any node missing one), then assign the field schema at the last part. -/
def addFieldToChunk : Schema → List String → Schema → Schema
  | chunk, [], _ => chunk
  | .mk props i a, [last], fieldSchema =>
    .mk (some (upsert (props.getD []) last fieldSchema)) i a
  | .mk props i a, part :: rest, fieldSchema =>
    let ps := props.getD []
    let child :=
      match pyLookup ps part with
      | some c => c
      | none => Schema.mk (some []) none { typ := some "object" }
    .mk (some (upsert ps part (addFieldToChunk child rest fieldSchema))) i a

/-- One schema chunk dict. -/
structure SchemaChunk where
  schema : Schema
  chunk_id : ℕ
  total_chunks : ℕ
  dependencies : List String
  priority : String

/-- SchemaAnalyzer._get_chunk_dependencies.  Python collects into an
unordered set; the model keeps first-seen order. -/
def getChunkDependencies (chunk : Schema) (graph : List (String × DepInfo)) :
    List String :=
  let chunkFields := ((flattenSchemaVal chunk "").map Prod.fst).dedup
  (chunkFields.foldl
    (fun acc field =>
      match pyLookup graph field with
      | some info => acc ++ info.depends_on.filter (fun dep => dep ∉ chunkFields)
      | none => acc)
    []).dedup

/-- SchemaAnalyzer._calculate_chunk_priority (floats as exact rationals). -/
def calculateChunkPriority (chunk : Schema) (graph : List (String × DepInfo)) :
    String :=
  let chunkFields := dictOf (flattenSchemaVal chunk "")
  let requiredCount := (chunkFields.filter fun kv =>
    match pyLookup graph kv.1 with
    | some info => info.required
    | none => false).length
  if (requiredCount : ℚ) > (chunkFields.length : ℚ) * (7/10) then "high"
  else if (requiredCount : ℚ) > (chunkFields.length : ℚ) * (3/10) then "medium"
  else "low"

/-- Close the current chunk (total_chunks is patched afterwards). -/
def mkChunk (cur : Schema) (cid : ℕ) (graph : List (String × DepInfo)) :
    SchemaChunk :=
  { schema := cur
    chunk_id := cid
    total_chunks := 0
    dependencies := getChunkDependencies cur graph
    priority := calculateChunkPriority cur graph }

/-- The field loop of SchemaAnalyzer._create_dependency_chunks.
estF models estimate_schema_tokens({field_path: field_schema}). -/
def chunkLoop (estF : String → Schema → ℕ) (schema : Schema)
    (graph : List (String × DepInfo)) (maxTokens : ℕ) :
    List String → Schema → ℕ → ℕ → List SchemaChunk → List SchemaChunk
  | [], cur, _, cid, chunks =>
    if (cur.props.getD []).isEmpty then chunks else chunks ++ [mkChunk cur cid graph]
  | fp :: rest, cur, curTok, cid, chunks =>
    let parts := splitDots fp
    let fs := getFieldSchema schema parts
    let ftok := estF fp fs
    if curTok + ftok > maxTokens ∧ ¬ (cur.props.getD []).isEmpty then
      chunkLoop estF schema graph maxTokens rest
        (addFieldToChunk emptyChunk parts fs) ftok (cid + 1)
        (chunks ++ [mkChunk cur cid graph])
    else
      chunkLoop estF schema graph maxTokens rest
        (addFieldToChunk cur parts fs) (curTok + ftok) cid chunks

/-- SchemaAnalyzer._create_dependency_chunks. -/
def createDependencyChunks (estF : String → Schema → ℕ) (schema : Schema)
    (graph : List (String × DepInfo)) (maxTokens : ℕ) : List SchemaChunk :=
  let ordered := getExtractionOrder schema
  let chunks := chunkLoop estF schema graph maxTokens ordered emptyChunk 0 0 []
  chunks.map fun c => { c with total_chunks := chunks.length }

/-- SchemaAnalyzer.chunk_schema.  est models estimate_schema_tokens on the
whole schema; estF the per-field estimate. -/
def chunkSchema (est : Schema → ℕ) (estF : String → Schema → ℕ)
    (maxTokens : ℕ) (schema : Schema) : List SchemaChunk :=
  if est schema ≤ maxTokens then
    [{ schema := schema, chunk_id := 0, total_chunks := 1,
       dependencies := [], priority := "high" }]
  else
    createDependencyChunks estF schema (buildDependencyGraph schema) maxTokens

/-- The key paths of a chunk under construction. -/
def chunkPaths (c : Schema) : List (List String) :=
  (flattenPathsVal c []).map Prod.fst

mutual
/-- Invariant of chunks built by addFieldToChunk: property names are good and
distinct, and every child is either a leaf or an object node with at least
one flattened leaf below it. -/
def chunkWF : Schema → Bool
  | .mk (some ps) _ _ => chunkWFList ps
  | _ => false

def chunkWFList : List (String × Schema) → Bool
  | [] => true
  | (k, v) :: rest =>
    goodNameB k
    && (if v.hasProps then chunkWF v && !(flattenPathsVal v []).isEmpty else true)
    && !((rest.map Prod.fst).contains k)
    && chunkWFList rest
end

/-! ## ExtractionEngine.extract_complex and extract_hierarchical

The OpenAI call, json.loads and the in-try confidence computation are the
per-iteration try body; they are abstracted as an oracle `attempt` indexed by
the iteration count (chunk schema, prompt and context are deterministic
functions of that index, so an index-only oracle loses no generality).  An
`Except.ok` carries the parsed chunk/level dict, its confidence and the token
usage; an `Except.error` is any exception raised inside the try. -/

/-- The sort key {'high': 0, 'medium': 1, 'low': 2}[x['priority']] of
extract_complex.  chunk_schema only emits these three priorities; any other
string raises KeyError in Python, modeled here as rank 3. -/
def priorityRank : String → ℕ
  | "high" => 0
  | "medium" => 1
  | "low" => 2
  | _ => 3

/-- Stable insert for insertion sort: place `a` before the first element it
compares le to, after everything strictly smaller. -/
def insertLe {α : Type} (le : α → α → Bool) : α → List α → List α
  | a, [] => [a]
  | a, b :: rest => if le a b then a :: b :: rest else b :: insertLe le a rest

/-- Python's sorted(...) is a stable sort by key; a stable sort is uniquely
determined by the key order, so stable insertion sort gives the same list. -/
def sortChunks (chunks : List SchemaChunk) : List SchemaChunk :=
  chunks.foldr
    (insertLe fun a b => priorityRank a.priority ≤ priorityRank b.priority) []

/-- Python dict.update: upsert every pair of the second dict into the first. -/
def updateFields {α : Type} (d new : List (String × α)) : List (String × α) :=
  new.foldl (fun acc kv => upsert acc kv.1 kv.2) d

/-- The chunk loop of ExtractionEngine.extract_complex: on success append
{data, confidence, chunk_id, priority} and fold the data into the context; on
exception append {data: {}, confidence: {overall: 0, fields: {}}, chunk_id,
error} and continue.  Returns (results, total_tokens). -/
def extractComplexLoop
    (attempt : ℕ → Except String (List (String × JValue) × Confidence × ℕ)) :
    List SchemaChunk → ℕ → List ChunkItem → List (String × JValue) → ℕ →
    List ChunkItem × ℕ
  | [], _, results, _, totalTokens => (results, totalTokens)
  | chunk :: rest, n, results, prev, totalTokens =>
    match attempt n with
    | .ok (d, cf, tok) =>
      extractComplexLoop attempt rest (n + 1)
        (results ++ [{ data := d, confidence := cf,
                       chunk_id := some chunk.chunk_id,
                       priority := some chunk.priority }])
        (mergeDictsDeep prev d) (totalTokens + tok)
    | .error e =>
      extractComplexLoop attempt rest (n + 1)
        (results ++ [{ data := [], confidence := ⟨0, []⟩,
                       chunk_id := some chunk.chunk_id, error := some e }])
        prev totalTokens

/-- ExtractionEngine.extract_complex. -/
def extractComplex
    (attempt : ℕ → Except String (List (String × JValue) × Confidence × ℕ))
    (schemaChunks : List SchemaChunk) : ExtractionResult :=
  let sortedChunks := sortChunks schemaChunks
  let pair := extractComplexLoop attempt sortedChunks 0 [] [] 0
  let results := pair.1
  let mergedData := results.foldl (fun acc r => mergeDictsDeep acc r.data) []
  let allFieldConfidences :=
    results.foldl (fun acc r => updateFields acc r.confidence.fields) []
  let overall : ℚ :=
    if allFieldConfidences.length = 0 then 0
    else (allFieldConfidences.map Prod.snd).sum / allFieldConfidences.length
  { data := mergedData
    confidence := ⟨overall, allFieldConfidences⟩
    strategy := some "multi_pass_chunked"
    token_usage := some pair.2
    chunk_results := some results }

/-- The single entry extract_complex appends for iteration i: the success
literal {data, confidence, chunk_id, priority} or the except-branch literal
{data: {}, confidence: {overall: 0.0, fields: {}}, chunk_id, error}. -/
def chunkAttemptEntry
    (attempt : ℕ → Except String (List (String × JValue) × Confidence × ℕ))
    (i : ℕ) (chunk : SchemaChunk) : ChunkItem :=
  match attempt i with
  | .ok (d, cf, _) =>
    { data := d, confidence := cf, chunk_id := some chunk.chunk_id,
      priority := some chunk.priority }
  | .error e =>
    { data := [], confidence := ⟨0, []⟩, chunk_id := some chunk.chunk_id,
      error := some e }

/-- field.count('.'). -/
def dotCount (s : String) : ℕ := s.data.count '.'

/-- ExtractionEngine._group_fields_by_level: levels keyed by dot count, keys
in first-seen order, fields appended in order. -/
def groupFieldsByLevel (fields : List String) : List (ℕ × List String) :=
  fields.foldl
    (fun levels f =>
      let lvl := dotCount f
      match levels.lookup lvl with
      | some l => levels.map fun p => if p.1 = lvl then (p.1, l ++ [f]) else p
      | none => levels ++ [(lvl, [f])])
    []

/-- The level loop of ExtractionEngine.extract_hierarchical: on success merge
the level result and update the confidence fields; on exception `continue`
with nothing recorded.  Returns (result, confidence_scores, total_tokens). -/
def extractHierarchicalLoop
    (attempt : ℕ → Except String (List (String × JValue) × Confidence × ℕ)) :
    List (ℕ × List String) → ℕ → List (String × JValue) →
    List (String × ℚ) → ℕ →
    List (String × JValue) × List (String × ℚ) × ℕ
  | [], _, result, confs, totalTokens => (result, confs, totalTokens)
  | _ :: rest, n, result, confs, totalTokens =>
    match attempt n with
    | .ok (d, cf, tok) =>
      extractHierarchicalLoop attempt rest (n + 1) (mergeDictsDeep result d)
        (updateFields confs cf.fields) (totalTokens + tok)
    | .error _ =>
      extractHierarchicalLoop attempt rest (n + 1) result confs totalTokens

/-- ExtractionEngine.extract_hierarchical. -/
def extractHierarchical
    (attempt : ℕ → Except String (List (String × JValue) × Confidence × ℕ))
    (schema : Schema) : ExtractionResult :=
  let levels := groupFieldsByLevel (getExtractionOrder schema)
  let triple := extractHierarchicalLoop attempt levels 0 [] [] 0
  let confs := triple.2.1
  let overall : ℚ :=
    if confs.length = 0 then 0 else (confs.map Prod.snd).sum / confs.length
  { data := triple.1
    confidence := ⟨overall, confs⟩
    strategy := some "multi_pass_hierarchical"
    token_usage := some triple.2.2 }

/-! ## DocumentProcessor.chunk_document

count_tokens (tiktoken) is the parameter ct; the regex sentence splitter
_split_into_sentences is the parameter splitSent (also used on previous chunk
texts inside _get_overlap_text, as in the source); the five clause-split
regexes of _split_oversized_sentence are the parameter clauseSplit i. -/

/-- ' '.join. -/
def joinSp : List String → String
  | [] => ""
  | [x] => x
  | x :: y :: r => x ++ " " ++ joinSp (y :: r)

/-- sum(count_tokens(s) for s in l). -/
def sumCt (ct : String → ℕ) (l : List String) : ℕ := (l.map ct).sum

/-- A token counter that distributes over the space-joining the chunker does;
word-like counters satisfy it. -/
def SpaceAdditive (ct : String → ℕ) : Prop :=
  ∀ a b : String, ct (a ++ " " ++ b) = ct a + ct b

/-- One chunk dict of chunk_document.  has_overlap is none on the two paths
whose dict literal lacks the key. -/
structure DocChunk where
  text : String
  chunk_id : ℕ
  start_pos : Int
  end_pos : Int
  token_count : ℕ
  sentence_count : ℕ
  has_overlap : Option Bool := none

/-- DocumentProcessor._get_overlap_sentences. -/
def getOverlapSentences (cur : List String) : List String :=
  if cur.length ≤ 2 then []
  else
    let overlapCount := min 2 (cur.length / 3)
    if overlapCount > 0 then cur.drop (cur.length - overlapCount) else []

/-- The truncation loop of _get_overlap_text: walk the words from the right,
prepending while the running total fits the overlap budget, stop at the first
word that does not fit. -/
def truncLoop (ct : String → ℕ) (ovT : ℕ) :
    List String → List String → ℕ → List String
  | [], acc, _ => acc
  | w :: rest, acc, cur =>
    if cur + ct w ≤ ovT then truncLoop ct ovT rest (w :: acc) (cur + ct w)
    else acc

/-- DocumentProcessor._get_overlap_text (the current_chunk_text argument is
unused in the source).  Take the last two sentences of the previous chunk's
text; if they exceed overlap_tokens, keep only a fitting suffix of words. -/
def getOverlapText (splitSent : String → List String) (ct : String → ℕ)
    (ovT : ℕ) (chunks : List DocChunk) : String :=
  match chunks.getLast? with
  | none => ""
  | some last =>
    let sents := splitSent last.text
    let overlapSents :=
      if sents.length ≥ 2 then sents.drop (sents.length - 2) else sents
    let overlapText := joinSp overlapSents
    if ct overlapText > ovT then
      joinSp (truncLoop ct ovT (splitWs overlapText).reverse [] 0)
    else overlapText

/-- The clause-packing loop of _split_oversized_sentence: parts are
concatenated (the split separators are dropped by re.split and not restored),
flushing the current chunk when the concatenation stops fitting. -/
def packClauses (ct : String → ℕ) (maxT : ℕ) :
    List String → String → List String → List String
  | [], cur, chunks => if cur ≠ "" then chunks ++ [cur] else chunks
  | p :: rest, cur, chunks =>
    let test := if cur ≠ "" then cur ++ p else p
    if ct test ≤ maxT then packClauses ct maxT rest test chunks
    else if cur ≠ "" then packClauses ct maxT rest p (chunks ++ [cur])
    else packClauses ct maxT rest p chunks

/-- The word-fallback loop of _split_oversized_sentence. -/
def packWords (ct : String → ℕ) (maxT : ℕ) :
    List String → List String → List String → List String
  | [], cur, chunks => if cur ≠ [] then chunks ++ [joinSp cur] else chunks
  | w :: rest, cur, chunks =>
    let test := cur ++ [w]
    if ct (joinSp test) ≤ maxT then packWords ct maxT rest test chunks
    else if cur ≠ [] then packWords ct maxT rest [w] (chunks ++ [joinSp cur])
    else packWords ct maxT rest [w] chunks

/-- The pattern loop of _split_oversized_sentence: try each clause pattern in
turn, return its packing only when it splits and every packed chunk fits;
otherwise fall back to packing sentence.split() words. -/
def splitOversizedGo (clauseSplit : ℕ → String → List String)
    (ct : String → ℕ) (sentence : String) (maxT : ℕ) : List ℕ → List String
  | [] => packWords ct maxT (splitWs sentence) [] []
  | i :: restPatterns =>
    let parts := clauseSplit i sentence
    if parts.length > 1 then
      let clauses := packClauses ct maxT parts "" []
      if clauses.all (fun c => ct c ≤ maxT) then clauses
      else splitOversizedGo clauseSplit ct sentence maxT restPatterns
    else splitOversizedGo clauseSplit ct sentence maxT restPatterns

/-- DocumentProcessor._split_oversized_sentence. -/
def splitOversizedSentence (clauseSplit : ℕ → String → List String)
    (ct : String → ℕ) (sentence : String) (maxT : ℕ) : List String :=
  splitOversizedGo clauseSplit ct sentence maxT [0, 1, 2, 3, 4]

/-- The sentence loop of DocumentProcessor.chunk_document, with the trailing
final-chunk flush in the nil case.  State: emitted chunks, current sentence
list, current token total, next chunk id, text position. -/
def chunkDocLoop (splitSent : String → List String)
    (clauseSplit : ℕ → String → List String) (ct : String → ℕ)
    (maxT ovT : ℕ) :
    List String → List DocChunk → List String → ℕ → ℕ → Int → List DocChunk
  | [], chunks, cur, curTok, cid, pos =>
    if cur ≠ [] then
      let chunkText := joinSp cur
      let overlapText := getOverlapText splitSent ct ovT chunks
      let finalText :=
        if overlapText ≠ "" then overlapText ++ " " ++ chunkText else chunkText
      chunks ++ [{ text := finalText, chunk_id := cid,
                   start_pos := pos - (chunkText.length : Int), end_pos := pos,
                   token_count := ct finalText, sentence_count := cur.length,
                   has_overlap := some (overlapText ≠ "") }]
    else chunks
  | s :: rest, chunks, cur, curTok, cid, pos =>
    let st := ct s
    if st > maxT then
      let flushed :=
        if cur ≠ [] then
          let chunkText := joinSp cur
          (chunks ++ [{ text := chunkText, chunk_id := cid,
                        start_pos := pos - (chunkText.length : Int),
                        end_pos := pos, token_count := curTok,
                        sentence_count := cur.length }], cid + 1)
        else (chunks, cid)
      let after := (splitOversizedSentence clauseSplit ct s maxT).foldl
        (fun (acc : List DocChunk × ℕ × Int) sub =>
          (acc.1 ++ [{ text := sub, chunk_id := acc.2.1, start_pos := acc.2.2,
                       end_pos := acc.2.2 + (sub.length : Int),
                       token_count := ct sub, sentence_count := 1 }],
           acc.2.1 + 1, acc.2.2 + (sub.length : Int)))
        (flushed.1, flushed.2, pos)
      chunkDocLoop splitSent clauseSplit ct maxT ovT rest after.1 [] 0
        after.2.1 after.2.2
    else
      let next :=
        if curTok + st > maxT ∧ cur ≠ [] then
          let chunkText := joinSp cur
          let overlapText := getOverlapText splitSent ct ovT chunks
          let finalText :=
            if overlapText ≠ "" then overlapText ++ " " ++ chunkText
            else chunkText
          let ovs := getOverlapSentences cur
          (chunks ++ [{ text := finalText, chunk_id := cid,
                        start_pos := pos - (chunkText.length : Int),
                        end_pos := pos, token_count := ct finalText,
                        sentence_count := cur.length,
                        has_overlap := some (overlapText ≠ "") }],
           ovs, sumCt ct ovs, cid + 1)
        else (chunks, cur, curTok, cid)
      chunkDocLoop splitSent clauseSplit ct maxT ovT rest next.1
        (next.2.1 ++ [s]) (next.2.2.1 + st) next.2.2.2
        (pos + (s.length : Int) + 1)

/-- DocumentProcessor.chunk_document. -/
def chunkDocument (splitSent : String → List String)
    (clauseSplit : ℕ → String → List String) (ct : String → ℕ)
    (maxT ovT : ℕ) (text : String) : List DocChunk :=
  chunkDocLoop splitSent clauseSplit ct maxT ovT (splitSent text) [] [] 0 0 0

/-! ## Concrete fixtures -/

/-- A schema with a dotted property name colliding with a nested path. -/
def cSchemaDotted : Schema :=
  objS [("a.b", leafS {}), ("a", objS [("b", leafS {})])]

/-- A well-behaved two-leaf schema. -/
def wSchemaPlain : Schema :=
  objS [("a", objS [("b", leafS {})]), ("c", leafS {})]

/-- A schema where the dotted property name 'a.b' is a leaf while the nested
object chain a.b.c also exists: chunking loses 'a.b' and duplicates
'a.b.c'. -/
def cSchemaDotted4 : Schema :=
  objS [("a.b", leafS {}), ("a", objS [("b", objS [("c", leafS {})])])]

/-- A concrete sentence splitter reproducing what the Python regex
'(?<=[.!?])\\s+(?=[A-Z])' (with the strip and length-10 cleanup) returns on
every string it is applied to in the C6 counterexample run: split after a
period followed by a space, keeping the period. -/
def demoSplitAux : List Char → List Char → List String
  | [], acc => if acc.isEmpty then [] else [⟨acc.reverse⟩]
  | '.' :: ' ' :: rest, acc => ⟨acc.reverse ++ ['.']⟩ :: demoSplitAux rest []
  | c :: rest, acc => demoSplitAux rest (c :: acc)

def demoSplit (s : String) : List String := demoSplitAux s.data []

/-- A word-counting tokenizer (spaces + 1); it is space-additive. -/
def spaceCt (s : String) : ℕ := s.data.count ' ' + 1

/-- Chunk result {'data': {'flag': False}, 'confidence': ...}. -/
def chunkFlagFalse : ChunkItem :=
  { data := [("flag", .vBool false)], confidence := ⟨1, [("flag", 1)]⟩ }

/-- Chunk result {'data': {'flag': True}, 'confidence': ...}. -/
def chunkFlagTrue : ChunkItem :=
  { data := [("flag", .vBool true)], confidence := ⟨1, [("flag", 1)]⟩ }

-- ===== THEOREMS =====

/-- C1: strategy selection is a pure function of the schema metrics, tried in
order: token estimate above the chunk budget gives the chunked strategy, then
depth > 1 or object count > 1 gives hierarchical, else single_pass; and
needs_chunking is true exactly when the chunked branch was taken. -/
theorem strategy_selection_spec (maxT : ℕ) (m : SchemaMetrics) :
    (m.estimated_tokens > maxT →
      (analyzeComplexity maxT m).strategy = "multi_pass_chunked")
    ∧ (m.estimated_tokens ≤ maxT → (1 < m.max_depth ∨ 1 < m.object_count) →
      (analyzeComplexity maxT m).strategy = "multi_pass_hierarchical")
    ∧ (m.estimated_tokens ≤ maxT → m.max_depth ≤ 1 → m.object_count ≤ 1 →
      (analyzeComplexity maxT m).strategy = "single_pass")
    ∧ ((analyzeComplexity maxT m).needs_chunking = true ↔
      (analyzeComplexity maxT m).strategy = "multi_pass_chunked") := by
  simp only [analyzeComplexity, determineStrategy]
  refine ⟨fun h => by simp [h], fun h₁ h₂ => ?_, fun h₁ h₂ h₃ => ?_, ?_⟩
  · rw [if_neg (by omega), if_pos (by omega)]
  · rw [if_neg (by omega), if_neg (by omega)]
  · constructor
    · intro h
      have : m.estimated_tokens > maxT := by simpa using h
      simp [this]
    · intro h
      by_contra hb
      have hle : ¬ m.estimated_tokens > maxT := by simpa using hb
      rw [if_neg hle] at h
      rcases em (m.max_depth > 1 ∨ m.object_count > 1) with hd | hd
      · rw [if_pos hd] at h
        exact absurd h (by decide)
      · rw [if_neg hd] at h
        exact absurd h (by decide)

/-- Witness for C1 at concrete metrics. -/
theorem strategy_selection_spec_witness :
    (analyzeComplexity 100 ⟨3, 10, 2, 0, 50, 0⟩).strategy = "multi_pass_hierarchical" := by
  have h := (strategy_selection_spec 100 ⟨3, 10, 2, 0, 50, 0⟩).2.1
  exact h (by decide) (by decide)

/-- C9: the complexity score is the integer part of
min(30, depth*5) + min(25, fields/10) + min(25, objects*2) + min(20, enums/50),
and it always lies in [0, 100]. -/
theorem complexity_score_formula_and_range (m : SchemaMetrics) :
    calculateComplexityScore m =
      ⌊min 30 ((m.max_depth : ℚ) * 5) + min 25 ((m.total_fields : ℚ) / 10)
        + min 25 ((m.object_count : ℚ) * 2) + min 20 ((m.enum_complexity : ℚ) / 50)⌋
    ∧ 0 ≤ calculateComplexityScore m ∧ calculateComplexityScore m ≤ 100 := by
  refine ⟨rfl, ?_, ?_⟩
  · unfold calculateComplexityScore
    apply Int.floor_nonneg.mpr
    have h1 : (0 : ℚ) ≤ min 30 ((m.max_depth : ℚ) * 5) := le_min (by norm_num) (by positivity)
    have h2 : (0 : ℚ) ≤ min 25 ((m.total_fields : ℚ) / 10) := le_min (by norm_num) (by positivity)
    have h3 : (0 : ℚ) ≤ min 25 ((m.object_count : ℚ) * 2) := le_min (by norm_num) (by positivity)
    have h4 : (0 : ℚ) ≤ min 20 ((m.enum_complexity : ℚ) / 50) := le_min (by norm_num) (by positivity)
    linarith
  · unfold calculateComplexityScore
    have : min 30 ((m.max_depth : ℚ) * 5) + min 25 ((m.total_fields : ℚ) / 10)
        + min 25 ((m.object_count : ℚ) * 2) + min 20 ((m.enum_complexity : ℚ) / 50)
        ≤ 100 := by
      have h1 : min 30 ((m.max_depth : ℚ) * 5) ≤ 30 := min_le_left _ _
      have h2 : min 25 ((m.total_fields : ℚ) / 10) ≤ 25 := min_le_left _ _
      have h3 : min 25 ((m.object_count : ℚ) * 2) ≤ 25 := min_le_left _ _
      have h4 : min 20 ((m.enum_complexity : ℚ) / 50) ≤ 20 := min_le_left _ _
      linarith
    calc ⌊_⌋ ≤ (⌊(100 : ℚ)⌋ : ℤ) := Int.floor_le_floor this
    _ = 100 := by norm_num

/-- C10: merging an empty chunk-result list returns the well-formed empty
result: empty data, overall confidence 0 with empty field map, strategy
document_chunked, total_chunks 0, and no exception. -/
theorem merge_empty_result :
    mergeExtractions [] =
      .ok { data := [], confidence := ⟨0, []⟩, strategy := some "document_chunked",
            total_chunks := some 0 } := rfl

/-- C7: merging a one-element result list [A] yields A with only the strategy
field set to document_chunked and total_chunks set to 1; data, confidence,
token usage and every other field of A are unchanged. -/
theorem merge_singleton_spec (A : ChunkItem) :
    ∃ r, mergeExtractions [A] = .ok r
      ∧ r.data = A.data ∧ r.confidence = A.confidence
      ∧ r.token_usage = A.token_usage ∧ r.error = A.error
      ∧ r.chunk_id = A.chunk_id ∧ r.priority = A.priority
      ∧ r.strategy = some "document_chunked" ∧ r.total_chunks = some 1 := by
  exact ⟨_, rfl, rfl, rfl, rfl, rfl, rfl, rfl, rfl, rfl⟩

/-- C2 (code bug): merging chunk results {'flag': False} then {'flag': True}
yields flag = False, not the claimed logical OR True: since bool is a subclass
of int, two unequal booleans take the most-frequent-value branch of
_resolve_field_conflict (ties broken by first occurrence), and the boolean-or
branch below it is unreachable. -/
theorem merge_bool_conflict_is_not_or :
    (mergeExtractions [chunkFlagFalse, chunkFlagTrue]).map
        (fun r => getNestedValue r.data "flag") = .ok (.vBool false)
    ∧ resolveFieldConflict (.vBool false) (.vBool true) [.vBool false, .vBool true]
      = .vBool false := ⟨rfl, rfl⟩

/-- C3: score_field always returns a value in [0,1]; an absent (None) value
scores exactly 0.0 when the field is required and exactly 0.5 when it is
optional. -/
theorem score_field_range_and_absence (regexFn : String → String → RegexOutcome)
    (v : JValue) (s : Schema) (ctx : ExtractionContext) :
    (0 ≤ scoreField regexFn v s ctx ∧ scoreField regexFn v s ctx ≤ 1)
    ∧ (v.isNull = true → s.attrs.required = true → scoreField regexFn v s ctx = 0)
    ∧ (v.isNull = true → s.attrs.required = false →
        scoreField regexFn v s ctx = 1/2) := by
  refine ⟨?_, ?_, ?_⟩
  · unfold scoreField
    by_cases hn : v.isNull = true
    · rw [if_pos hn]
      by_cases hr : s.attrs.required = true
      · rw [if_pos hr]; norm_num
      · rw [if_neg hr]; norm_num
    · rw [if_neg hn]
      exact ⟨le_max_left _ _, max_le (by norm_num) (min_le_left _ _)⟩
  · intro hn hr
    unfold scoreField
    rw [if_pos hn, if_pos hr]
  · intro hn hr
    unfold scoreField
    rw [if_pos hn, if_neg (by simp [hr])]

/-- Witness for C3 at concrete inputs: a required absent field scores 0, an
optional absent field scores 0.5. -/
theorem score_field_range_and_absence_witness :
    JValue.vNull.isNull = true
    ∧ (leafS { required := true }).attrs.required = true
    ∧ scoreField (fun _ _ => .invalid) .vNull (leafS { required := true }) {} = 0
    ∧ (leafS {}).attrs.required = false
    ∧ scoreField (fun _ _ => .invalid) .vNull (leafS {}) {} = 1/2 := by
  refine ⟨rfl, rfl, ?_, rfl, ?_⟩
  · exact (score_field_range_and_absence (fun _ _ => .invalid) .vNull
      (leafS { required := true }) {}).2.1 rfl rfl
  · exact (score_field_range_and_absence (fun _ _ => .invalid) .vNull
      (leafS {}) {}).2.2 rfl rfl

/-! ## Helper lemmas on dot paths and flatten_schema -/

theorem splitOnDot_no_dot : ∀ (l : List Char), ('.' : Char) ∉ l → splitOnDot l = [l]
  | [], _ => rfl
  | c :: rest, h => by
    have hc : ¬ (c = '.') := fun e => h (by simp [e])
    have hr : ('.' : Char) ∉ rest := fun m => h (List.mem_cons_of_mem _ m)
    rw [splitOnDot, if_neg hc, splitOnDot_no_dot rest hr]

theorem splitOnDot_append : ∀ (a t : List Char), ('.' : Char) ∉ a →
    splitOnDot (a ++ '.' :: t) = a :: splitOnDot t
  | [], t, _ => by simp [splitOnDot]
  | c :: a', t, h => by
    have hc : ¬ (c = '.') := fun e => h (by simp [e])
    have ha : ('.' : Char) ∉ a' := fun m => h (List.mem_cons_of_mem _ m)
    have ih := splitOnDot_append a' t ha
    rw [List.cons_append, splitOnDot, if_neg hc, ih]

theorem data_append (a b : String) : (a ++ b).data = a.data ++ b.data :=
  String.data_append a b

theorem joinDots_cons_cons (x y : String) (r : List String) :
    (joinDots (x :: y :: r)).data = x.data ++ '.' :: (joinDots (y :: r)).data := by
  show (x ++ "." ++ joinDots (y :: r)).data = _
  rw [data_append, data_append]
  have hd : ".".data = ['.'] := rfl
  rw [hd]
  simp

theorem splitDots_joinDots : ∀ (p : List String), p ≠ [] →
    (∀ x ∈ p, goodNameB x = true) → splitDots (joinDots p) = p
  | [], h, _ => absurd rfl h
  | [x], _, hg => by
    have hx : ('.' : Char) ∉ x.data := by
      have := hg x (by simp)
      simp [goodNameB] at this
      simpa using this.2
    show (splitOnDot (joinDots [x]).data).map (fun l => (⟨l⟩ : String)) = [x]
    rw [show joinDots [x] = x from rfl, splitOnDot_no_dot x.data hx]
    rfl
  | x :: y :: r, _, hg => by
    have hx : ('.' : Char) ∉ x.data := by
      have := hg x (by simp)
      simp [goodNameB] at this
      simpa using this.2
    have ih := splitDots_joinDots (y :: r) (by simp)
      (fun z hz => hg z (List.mem_cons_of_mem _ hz))
    show (splitOnDot (joinDots (x :: y :: r)).data).map (fun l => (⟨l⟩ : String)) = _
    rw [joinDots_cons_cons, splitOnDot_append x.data _ hx]
    have : (splitOnDot (joinDots (y :: r)).data).map (fun l => (⟨l⟩ : String)) = y :: r := ih
    simp only [List.map_cons, this]

theorem joinDots_inj {p q : List String} (hp : p ≠ []) (hq : q ≠ [])
    (hgp : ∀ x ∈ p, goodNameB x = true) (hgq : ∀ x ∈ q, goodNameB x = true)
    (h : joinDots p = joinDots q) : p = q := by
  have := splitDots_joinDots p hp hgp
  rw [h, splitDots_joinDots q hq hgq] at this
  exact this.symm

theorem flattenPathsVal_props {props i a ps'} (h : props = some ps') :
    flattenPathsVal (.mk props i a) pfx = flattenPathsList ps' pfx := by
  subst h; rfl

theorem flattenPathsList_shape :
    ∀ (ps : List (String × Schema)) (pfx : List String) (p : List String) (t : Schema),
      (p, t) ∈ flattenPathsList ps pfx →
      ∃ k suf, k ∈ ps.map Prod.fst ∧ p = pfx ++ k :: suf
  | [], _, _, _, h => by simp [flattenPathsList] at h
  | (k, Schema.mk (some ps') i a) :: rest, pfx, p, t, h => by
    simp only [flattenPathsList, Schema.hasProps, if_true, List.mem_append] at h
    rcases h with h1 | h2
    · rw [flattenPathsVal_props rfl] at h1
      obtain ⟨k', suf', _, hp⟩ := flattenPathsList_shape ps' (pfx ++ [k]) p t h1
      refine ⟨k, k' :: suf', by simp, ?_⟩
      rw [hp]; simp
    · obtain ⟨k', suf', hk', hp⟩ := flattenPathsList_shape rest pfx p t h2
      exact ⟨k', suf', by simp [List.mem_cons]; right; simpa using hk', hp⟩
  | (k, Schema.mk none i a) :: rest, pfx, p, t, h => by
    simp only [flattenPathsList, Schema.hasProps, Bool.false_eq_true, if_false,
      List.singleton_append, List.mem_cons] at h
    rcases h with h1 | h2
    · refine ⟨k, [], by simp, ?_⟩
      have := congrArg Prod.fst h1
      simpa using this
    · obtain ⟨k', suf', hk', hp⟩ := flattenPathsList_shape rest pfx p t h2
      exact ⟨k', suf', by simp [List.mem_cons]; right; simpa using hk', hp⟩

theorem flattenPathsList_key_shape {ps : List (String × Schema)} {pfx : List String}
    {p : List String} (h : p ∈ (flattenPathsList ps pfx).map Prod.fst) :
    ∃ k suf, k ∈ ps.map Prod.fst ∧ p = pfx ++ k :: suf := by
  obtain ⟨⟨p', t⟩, hm, he⟩ := List.mem_map.mp h
  cases he
  exact flattenPathsList_shape ps pfx p' t hm

theorem goodPropsB_cons {k v rest} (h : goodPropsB ((k, v) :: rest) = true) :
    goodNameB k = true ∧ goodSchemaB v = true
      ∧ ((rest.map Prod.fst).contains k = false) ∧ goodPropsB rest = true := by
  simp only [goodPropsB, Bool.and_eq_true, Bool.not_eq_true'] at h
  exact ⟨h.1.1.1, h.1.1.2, h.1.2, h.2⟩

theorem goodSchemaB_props {props i a ps'} (hp : props = some ps')
    (h : goodSchemaB (.mk props i a) = true) : goodPropsB ps' = true := by
  subst hp; simpa [goodSchemaB] using h

theorem flattenPathsList_apart :
    ∀ (ps : List (String × Schema)) (pfx : List String), goodPropsB ps = true →
      List.Pairwise PathsApart ((flattenPathsList ps pfx).map Prod.fst)
  | [], _, _ => by simp [flattenPathsList]
  | (k, Schema.mk (some ps') i a) :: rest, pfx, hg => by
    obtain ⟨hk, hv, hnk, hrest⟩ := goodPropsB_cons hg
    simp only [flattenPathsList, Schema.hasProps, if_true, List.map_append]
    rw [flattenPathsVal_props rfl]
    rw [List.pairwise_append]
    refine ⟨flattenPathsList_apart ps' (pfx ++ [k]) (goodSchemaB_props rfl hv),
      flattenPathsList_apart rest pfx hrest, ?_⟩
    intro x hx y hy
    obtain ⟨k1, s1, _, hx1⟩ := flattenPathsList_key_shape hx
    obtain ⟨k2, s2, hk2, hy1⟩ := flattenPathsList_key_shape hy
    have hne : k ≠ k2 := by
      intro e
      have hnk' : k ∉ rest.map Prod.fst := by simpa using hnk
      exact hnk' (e ▸ hk2)
    subst hx1 hy1
    constructor
    · intro hpre
      rw [List.append_assoc] at hpre
      have : [k] ++ k1 :: s1 <+: k2 :: s2 := (List.prefix_append_right_inj pfx).mp hpre
      rw [List.singleton_append, List.cons_prefix_cons] at this
      exact hne this.1
    · intro hpre
      rw [List.append_assoc] at hpre
      have : k2 :: s2 <+: [k] ++ k1 :: s1 := (List.prefix_append_right_inj pfx).mp hpre
      rw [List.singleton_append, List.cons_prefix_cons] at this
      exact hne this.1.symm
  | (k, Schema.mk none i a) :: rest, pfx, hg => by
    obtain ⟨hk, hv, hnk, hrest⟩ := goodPropsB_cons hg
    simp only [flattenPathsList, Schema.hasProps, Bool.false_eq_true, if_false,
      List.singleton_append, List.map_cons]
    rw [List.pairwise_cons]
    refine ⟨?_, flattenPathsList_apart rest pfx hrest⟩
    intro y hy
    obtain ⟨k2, s2, hk2, hy1⟩ := flattenPathsList_key_shape hy
    have hne : k ≠ k2 := by
      intro e
      have hnk' : k ∉ rest.map Prod.fst := by simpa using hnk
      exact hnk' (e ▸ hk2)
    subst hy1
    constructor
    · intro hpre
      have : [k] <+: k2 :: s2 := (List.prefix_append_right_inj pfx).mp hpre
      rw [List.cons_prefix_cons] at this
      exact hne this.1
    · intro hpre
      have : k2 :: s2 <+: [k] := (List.prefix_append_right_inj pfx).mp hpre
      rw [List.cons_prefix_cons] at this
      exact hne this.1.symm

theorem flattenPathsList_good :
    ∀ (ps : List (String × Schema)) (pfx : List String), goodPropsB ps = true →
      (∀ x ∈ pfx, goodNameB x = true) →
      ∀ p t, (p, t) ∈ flattenPathsList ps pfx → ∀ x ∈ p, goodNameB x = true
  | [], _, _, _, p, t, h => by simp [flattenPathsList] at h
  | (k, Schema.mk (some ps') i a) :: rest, pfx, hg, hpfx, p, t, h => by
    obtain ⟨hk, hv, _, hrest⟩ := goodPropsB_cons hg
    simp only [flattenPathsList, Schema.hasProps, if_true, List.mem_append] at h
    rcases h with h1 | h2
    · rw [flattenPathsVal_props rfl] at h1
      refine flattenPathsList_good ps' (pfx ++ [k]) (goodSchemaB_props rfl hv)
        (fun x hx => ?_) p t h1
      rcases List.mem_append.mp hx with hx | hx
      · exact hpfx x hx
      · simp at hx; subst hx; exact hk
    · exact flattenPathsList_good rest pfx hrest hpfx p t h2
  | (k, Schema.mk none i a) :: rest, pfx, hg, hpfx, p, t, h => by
    obtain ⟨hk, _, _, hrest⟩ := goodPropsB_cons hg
    simp only [flattenPathsList, Schema.hasProps, Bool.false_eq_true, if_false,
      List.singleton_append, List.mem_cons] at h
    rcases h with h1 | h2
    · have hp : p = pfx ++ [k] := by simpa using congrArg Prod.fst h1
      subst hp
      intro x hx
      rcases List.mem_append.mp hx with hx | hx
      · exact hpfx x hx
      · simp at hx; subst hx; exact hk
    · exact flattenPathsList_good rest pfx hrest hpfx p t h2

theorem goodNameB_ne_empty {k : String} (h : goodNameB k = true) : k ≠ "" := by
  simp only [goodNameB, Bool.and_eq_true, Bool.not_eq_true', beq_eq_false_iff_ne,
    ne_eq] at h
  exact h.1

theorem joinDots_append_single : ∀ (l : List String) (k : String), l ≠ [] →
    joinDots (l ++ [k]) = joinDots l ++ "." ++ k
  | [], _, h => absurd rfl h
  | [x], k, _ => rfl
  | x :: y :: r, k, _ => by
    have ih := joinDots_append_single (y :: r) k (by simp)
    show x ++ "." ++ joinDots ((y :: r) ++ [k]) = (x ++ "." ++ joinDots (y :: r)) ++ "." ++ k
    rw [ih]
    simp [String.append_assoc]

theorem joinDots_snoc_ne_empty (l : List String) (k : String)
    (hk : goodNameB k = true) : joinDots (l ++ [k]) ≠ "" := by
  cases l with
  | nil => simpa [joinDots] using goodNameB_ne_empty hk
  | cons x r =>
    rw [joinDots_append_single (x :: r) k (by simp)]
    intro e
    have hlen := congrArg String.length e
    rw [String.length_append, String.length_append] at hlen
    have h1 : ".".length = 1 := rfl
    have h2 : "".length = 0 := rfl
    rw [h1, h2] at hlen
    omega

theorem dotJoin_joinDots (pfx : List String) (k : String) (hk : goodNameB k = true)
    (h : pfx = [] ∨ joinDots pfx ≠ "") :
    dotJoin (joinDots pfx) k = joinDots (pfx ++ [k]) := by
  rcases h with h | h
  · subst h; rfl
  · rw [dotJoin, if_neg h]
    cases pfx with
    | nil => simp [joinDots] at h
    | cons x r => rw [joinDots_append_single (x :: r) k (by simp)]

theorem flattenSchemaVal_props {props : Option (List (String × Schema))} {i a ps'}
    (h : props = some ps') (pfx : String) :
    flattenSchemaVal (.mk props i a) pfx = flattenSchemaList ps' pfx := by
  subst h; rfl

theorem flattenSchemaList_eq_paths :
    ∀ (ps : List (String × Schema)) (pfxL : List String), goodPropsB ps = true →
      (pfxL = [] ∨ joinDots pfxL ≠ "") →
      flattenSchemaList ps (joinDots pfxL)
        = (flattenPathsList ps pfxL).map (fun pt => (joinDots pt.1, pt.2))
  | [], _, _, _ => by simp [flattenSchemaList, flattenPathsList]
  | (k, Schema.mk (some ps') i a) :: rest, pfxL, hg, hpfx => by
    obtain ⟨hk, hv, _, hrest⟩ := goodPropsB_cons hg
    simp only [flattenSchemaList, flattenPathsList, Schema.hasProps, if_true,
      List.map_append]
    rw [flattenSchemaVal_props rfl, flattenPathsVal_props rfl]
    have hjoin : dotJoin (joinDots pfxL) k = joinDots (pfxL ++ [k]) :=
      dotJoin_joinDots pfxL k hk hpfx
    congr 1
    · rw [hjoin]
      exact flattenSchemaList_eq_paths ps' (pfxL ++ [k]) (goodSchemaB_props rfl hv)
        (Or.inr (joinDots_snoc_ne_empty pfxL k hk))
    · exact flattenSchemaList_eq_paths rest pfxL hrest hpfx
  | (k, Schema.mk none i a) :: rest, pfxL, hg, hpfx => by
    obtain ⟨hk, _, _, hrest⟩ := goodPropsB_cons hg
    simp only [flattenSchemaList, flattenPathsList, Schema.hasProps,
      Bool.false_eq_true, if_false, List.map_append, List.map_cons, List.map_nil]
    rw [dotJoin_joinDots pfxL k hk hpfx]
    congr 1
    exact flattenSchemaList_eq_paths rest pfxL hrest hpfx

theorem flattenSchemaVal_eq_paths (s : Schema) (h : goodSchemaB s = true) :
    flattenSchemaVal s "" = (flattenPathsVal s []).map (fun pt => (joinDots pt.1, pt.2)) := by
  cases s with
  | mk props i a =>
    cases props with
    | none => rfl
    | some ps =>
      have hps : goodPropsB ps = true := by simpa [goodSchemaB] using h
      show flattenSchemaList ps "" = (flattenPathsList ps []).map _
      have := flattenSchemaList_eq_paths ps [] hps (Or.inl rfl)
      simpa [joinDots] using this

theorem apart_nodup {l : List (List String)} (h : List.Pairwise PathsApart l) :
    l.Nodup := by
  refine h.imp ?_
  intro a b hab e
  exact hab.1 (e ▸ List.prefix_refl a)

theorem flattenKeys_nodup (s : Schema) (h : goodSchemaB s = true) :
    (flattenKeys s).Nodup := by
  unfold flattenKeys
  rw [flattenSchemaVal_eq_paths s h, List.map_map]
  have heq : (Prod.fst ∘ fun pt : List String × Schema => (joinDots pt.1, pt.2))
      = joinDots ∘ Prod.fst := rfl
  rw [heq, ← List.map_map]
  cases s with
  | mk props i a =>
    cases props with
    | none => simp [flattenPathsVal]
    | some ps =>
      have hps : goodPropsB ps = true := by simpa [goodSchemaB] using h
      rw [flattenPathsVal_props rfl]
      apply List.Nodup.map_on
      · intro x hx y hy hxy
        obtain ⟨kx, sx, _, hx1⟩ := flattenPathsList_key_shape hx
        obtain ⟨ky, sy, _, hy1⟩ := flattenPathsList_key_shape hy
        obtain ⟨⟨x', tx⟩, hmx, hex⟩ := List.mem_map.mp hx
        obtain ⟨⟨y', ty⟩, hmy, hey⟩ := List.mem_map.mp hy
        cases hex; cases hey
        refine joinDots_inj ?_ ?_ ?_ ?_ hxy
        · rw [hx1]; simp
        · rw [hy1]; simp
        · exact flattenPathsList_good ps [] hps (by simp) x' tx hmx
        · exact flattenPathsList_good ps [] hps (by simp) y' ty hmy
      · exact apart_nodup (flattenPathsList_apart ps [] hps)

theorem flattenSchemaList_length :
    ∀ (ps : List (String × Schema)) (pfx : String),
      (flattenSchemaList ps pfx).length = countLeavesList ps
  | [], _ => rfl
  | (k, Schema.mk (some ps') i a) :: rest, pfx => by
    simp only [flattenSchemaList, countLeavesList, countLeaves, Schema.hasProps,
      if_true, List.length_append]
    rw [flattenSchemaVal_props rfl, flattenSchemaList_length ps' _,
      flattenSchemaList_length rest pfx]
  | (k, Schema.mk none i a) :: rest, pfx => by
    simp only [flattenSchemaList, countLeavesList, Schema.hasProps,
      Bool.false_eq_true, if_false, List.singleton_append, List.length_cons]
    rw [flattenSchemaList_length rest pfx]
    omega

theorem flattenSchemaVal_length (s : Schema) (pfx : String) :
    (flattenSchemaVal s pfx).length = countLeaves s := by
  cases s with
  | mk props i a =>
    cases props with
    | none => rfl
    | some ps => exact flattenSchemaList_length ps pfx

/-- C8 counterexample: for the schema
{'properties': {'a.b': {...leaf...}, 'a': {'properties': {'b': {...leaf...}}}}}
the dotted property name collides with the nested path, so the flattened
mapping has 1 key while 2 leaf nodes are reachable via properties traversal:
the claimed size equality fails. -/
theorem flatten_schema_size_counterexample :
    (flattenMapKeys cSchemaDotted).length ≠ countLeaves cSchemaDotted := by decide

/-- C8 (amended): for every schema whose property names are non-empty and
dot-free (and, as Python dicts guarantee, with distinct sibling names), the
flattened mapping has no duplicate keys and its size equals the number of
leaf nodes reachable via properties traversal; flattening a node with no
properties yields the empty mapping. -/
theorem flatten_schema_nodup_and_size (s : Schema) (h : goodSchemaB s = true) :
    (flattenMapKeys s).Nodup
    ∧ (flattenMapKeys s).length = countLeaves s
    ∧ ((s.props = none ∨ s.props = some []) → flattenSchemaVal s "" = []) := by
  refine ⟨List.nodup_dedup _, ?_, ?_⟩
  · unfold flattenMapKeys
    rw [List.dedup_eq_self.mpr (flattenKeys_nodup s h)]
    unfold flattenKeys
    rw [List.length_map]
    exact flattenSchemaVal_length s ""
  · intro hp
    cases s with
    | mk props i a =>
      rcases hp with hp | hp <;> simp only [Schema.props] at hp <;> subst hp <;> rfl

/-- Witness for the amended C8 at a concrete two-leaf schema. -/
theorem flatten_schema_nodup_and_size_witness :
    goodSchemaB wSchemaPlain = true
    ∧ (flattenMapKeys wSchemaPlain).length = countLeaves wSchemaPlain :=
  ⟨by decide, (flatten_schema_nodup_and_size wSchemaPlain (by decide)).2.1⟩

/-! ## Helper lemmas for schema chunking (C4) -/

theorem pyLookup_eq_none {α : Type} :
    ∀ (l : List (String × α)) (k : String), pyLookup l k = none ↔ k ∉ l.map Prod.fst
  | [], k => by simp [pyLookup]
  | (k', v) :: rest, k => by
    by_cases h : k' = k
    · subst h
      simp [pyLookup]
    · simp only [pyLookup, if_neg h, List.map_cons, List.mem_cons]
      rw [pyLookup_eq_none rest k]
      constructor
      · intro hn hm
        rcases hm with hm | hm
        · exact h hm.symm
        · exact hn hm
      · intro hn
        exact fun hm => hn (Or.inr hm)

theorem pyLookup_mem {α : Type} :
    ∀ (l : List (String × α)) (k : String) (v : α), pyLookup l k = some v → (k, v) ∈ l
  | [], k, v => by simp [pyLookup]
  | (k', v') :: rest, k, v => by
    by_cases h : k' = k
    · subst h
      simp [pyLookup]
      intro e; exact Or.inl e.symm
    · simp only [pyLookup, if_neg h, List.mem_cons]
      intro hl
      exact Or.inr (pyLookup_mem rest k v hl)

theorem upsert_absent {α : Type} :
    ∀ (l : List (String × α)) (k : String) (v : α), k ∉ l.map Prod.fst →
      upsert l k v = l ++ [(k, v)]
  | [], k, v, _ => rfl
  | (k', v') :: rest, k, v, h => by
    have hne : ¬ (k' = k) := by
      intro e; exact h (by simp [e])
    have hr : k ∉ rest.map Prod.fst := fun m => h (by simp [m])
    simp only [upsert, if_neg hne, upsert_absent rest k v hr, List.cons_append]

theorem upsert_decomp {α : Type} :
    ∀ (l : List (String × α)) (k : String) (c : α), pyLookup l k = some c →
      ∃ l₁ l₂, l = l₁ ++ (k, c) :: l₂ ∧ k ∉ l₁.map Prod.fst
        ∧ ∀ v, upsert l k v = l₁ ++ (k, v) :: l₂
  | [], k, c => by simp [pyLookup]
  | (k', v') :: rest, k, c => by
    by_cases h : k' = k
    · subst h
      intro e
      have hl : pyLookup ((k', v') :: rest) k' = some v' := by
        rw [pyLookup]; simp
      rw [hl] at e
      have hv : v' = c := Option.some.inj e
      subst hv
      exact ⟨[], rest, rfl, by simp, fun v => by rw [upsert]; simp⟩
    · simp only [pyLookup, if_neg h]
      intro hl
      obtain ⟨l₁, l₂, he, hn, hu⟩ := upsert_decomp rest k c hl
      refine ⟨(k', v') :: l₁, l₂, by simp [he], ?_, fun v => ?_⟩
      · simp only [List.map_cons, List.mem_cons]
        rintro (e | e)
        · exact h e.symm
        · exact hn e
      · simp only [upsert, if_neg h, hu v, List.cons_append]

theorem eq_singleton_of_nodup_mem {α : Type} {l : List α} {a : α}
    (hnd : l.Nodup) (hm : ∀ x, x ∈ l ↔ x = a) : l = [a] := by
  cases l with
  | nil => exact absurd ((hm a).mpr rfl) (by simp)
  | cons x xs =>
    have hx : x = a := (hm x).mp (by simp)
    subst hx
    cases xs with
    | nil => rfl
    | cons y ys =>
      have hy : y = x := (hm y).mp (by simp)
      rw [List.nodup_cons] at hnd
      exact absurd (by simp [hy]) (fun c => hnd.1 (hy ▸ c))

theorem flattenPathsList_append :
    ∀ (l₁ l₂ : List (String × Schema)) (pfx : List String),
      flattenPathsList (l₁ ++ l₂) pfx = flattenPathsList l₁ pfx ++ flattenPathsList l₂ pfx
  | [], l₂, pfx => by simp [flattenPathsList]
  | (k, v) :: rest, l₂, pfx => by
    simp only [List.cons_append, flattenPathsList, List.append_eq,
      flattenPathsList_append rest l₂ pfx, List.append_assoc]

theorem flattenPathsList_shift :
    ∀ (ps : List (String × Schema)) (pfx : List String),
      flattenPathsList ps pfx
        = (flattenPathsList ps []).map (fun pt => (pfx ++ pt.1, pt.2))
  | [], _ => by simp [flattenPathsList]
  | (k, Schema.mk (some ps') i a) :: rest, pfx => by
    simp only [flattenPathsList, Schema.hasProps, if_true, List.map_append]
    rw [flattenPathsVal_props rfl, flattenPathsVal_props rfl]
    rw [flattenPathsList_shift ps' (pfx ++ [k]), flattenPathsList_shift ps' ([] ++ [k]),
      flattenPathsList_shift rest pfx, List.map_map]
    congr 1
    apply List.map_congr_left
    intro pt _
    simp
  | (k, Schema.mk none i a) :: rest, pfx => by
    simp only [flattenPathsList, Schema.hasProps, Bool.false_eq_true, if_false,
      List.singleton_append, List.map_cons]
    rw [flattenPathsList_shift rest pfx]
    simp

theorem chunkWFList_cons {k v rest} (h : chunkWFList ((k, v) :: rest) = true) :
    goodNameB k = true
    ∧ (v.hasProps = true → chunkWF v = true ∧ flattenPathsVal v [] ≠ [])
    ∧ k ∉ rest.map Prod.fst ∧ chunkWFList rest = true := by
  simp only [chunkWFList, Bool.and_eq_true, Bool.not_eq_true'] at h
  obtain ⟨⟨⟨hk, hv⟩, hnk⟩, hrest⟩ := h
  refine ⟨hk, ?_, by simpa using hnk, hrest⟩
  intro hp
  rw [if_pos hp] at hv
  simp only [Bool.and_eq_true] at hv
  exact ⟨hv.1, by simpa using hv.2⟩

theorem chunkWFList_good : ∀ (ps : List (String × Schema)),
    chunkWFList ps = true → goodPropsB ps = true
  | [], _ => rfl
  | (k, v) :: rest, h => by
    obtain ⟨hk, hv, hnk, hrest⟩ := chunkWFList_cons h
    have hgv : goodSchemaB v = true := by
      cases v with
      | mk props i a =>
        cases props with
        | none => rfl
        | some ps' =>
          have := (hv rfl).1
          show goodPropsB ps' = true
          exact chunkWFList_good ps' (by simpa [chunkWF] using this)
    simp only [goodPropsB, Bool.and_eq_true, Bool.not_eq_true']
    refine ⟨⟨⟨hk, hgv⟩, by simpa using hnk⟩, chunkWFList_good rest hrest⟩

theorem chunkWFList_flatten_ne :
    ∀ (ps : List (String × Schema)) (pfx : List String), chunkWFList ps = true →
      ps ≠ [] → flattenPathsList ps pfx ≠ []
  | [], _, _, hne => absurd rfl hne
  | (k, v) :: rest, pfx, h, _ => by
    obtain ⟨_, hv, _, _⟩ := chunkWFList_cons h
    cases v with
    | mk props i a =>
      cases props with
      | none => simp [flattenPathsList, Schema.hasProps]
      | some ps' =>
        have hobj : (Schema.mk (some ps') i a).hasProps = true := rfl
        have hne' := (hv hobj).2
        rw [flattenPathsVal_props rfl] at hne'
        simp only [flattenPathsList, hobj, if_true]
        rw [flattenPathsVal_props rfl]
        intro he
        rcases List.append_eq_nil.mp he with ⟨h1, _⟩
        rw [flattenPathsList_shift ps' (pfx ++ [k])] at h1
        rw [List.map_eq_nil_iff] at h1
        exact hne' h1

theorem flattenPathsList_mem_leaf :
    ∀ (ps : List (String × Schema)) (pfx : List String) (k : String) (v : Schema),
      (k, v) ∈ ps → v.hasProps = false → (pfx ++ [k], v) ∈ flattenPathsList ps pfx
  | [], _, _, _, hm, _ => by simp at hm
  | (k', v') :: rest, pfx, k, v, hm, hlf => by
    rcases List.mem_cons.mp hm with he | hm'
    · rw [Prod.mk.injEq] at he
      obtain ⟨e1, e2⟩ := he
      subst e1; subst e2
      simp [flattenPathsList, hlf]
    · simp only [flattenPathsList, List.mem_append]
      exact Or.inr (flattenPathsList_mem_leaf rest pfx k v hm' hlf)

theorem flattenPathsList_mem_obj :
    ∀ (ps : List (String × Schema)) (pfx : List String) (k : String) (v : Schema)
      (q : List String) (t : Schema),
      (k, v) ∈ ps → (q, t) ∈ flattenPathsVal v [] →
      (pfx ++ k :: q, t) ∈ flattenPathsList ps pfx
  | [], _, _, _, _, _, hm, _ => by simp at hm
  | (k', v') :: rest, pfx, k, v, q, t, hm, hq => by
    rcases List.mem_cons.mp hm with he | hm'
    · rw [Prod.mk.injEq] at he
      obtain ⟨e1, e2⟩ := he
      subst e1; subst e2
      have hp : v.hasProps = true := by
        cases v with
        | mk props i a =>
          cases props with
          | none => simp [flattenPathsVal] at hq
          | some ps' => rfl
      simp only [flattenPathsList, hp, if_true, List.mem_append]
      left
      cases v with
      | mk props i a =>
        cases props with
        | none => simp [Schema.hasProps] at hp
        | some ps' =>
          rw [flattenPathsVal_props rfl] at hq ⊢
          rw [flattenPathsList_shift ps' (pfx ++ [k])]
          refine List.mem_map.mpr ⟨(q, t), hq, ?_⟩
          simp
    · simp only [flattenPathsList, List.mem_append]
      exact Or.inr (flattenPathsList_mem_obj rest pfx k v q t hm' hq)

theorem goodPropsB_keys_nodup : ∀ (ps : List (String × Schema)),
    goodPropsB ps = true → (ps.map Prod.fst).Nodup
  | [], _ => by simp
  | (k, v) :: rest, h => by
    obtain ⟨_, _, hnk, hrest⟩ := goodPropsB_cons h
    have hnk' : k ∉ rest.map Prod.fst := by simpa using hnk
    simp only [List.map_cons, List.nodup_cons]
    exact ⟨hnk', goodPropsB_keys_nodup rest hrest⟩

theorem chunkWFList_mem : ∀ (ps : List (String × Schema)),
    chunkWFList ps = true → ∀ (k : String) (v : Schema), (k, v) ∈ ps →
      goodNameB k = true
      ∧ (v.hasProps = true → chunkWF v = true ∧ flattenPathsVal v [] ≠ [])
  | [], _, k, v, hm => by simp at hm
  | (k', v') :: rest, h, k, v, hm => by
    obtain ⟨hk, hv, _, hrest⟩ := chunkWFList_cons h
    rcases List.mem_cons.mp hm with he | hm'
    · rw [Prod.mk.injEq] at he
      obtain ⟨e1, e2⟩ := he
      subst e1; subst e2
      exact ⟨hk, hv⟩
    · exact chunkWFList_mem rest hrest k v hm'

theorem chunkWFList_intro {k : String} {v : Schema} {rest : List (String × Schema)}
    (hk : goodNameB k = true)
    (hv : v.hasProps = true → chunkWF v = true ∧ flattenPathsVal v [] ≠ [])
    (hnk : k ∉ rest.map Prod.fst) (hrest : chunkWFList rest = true) :
    chunkWFList ((k, v) :: rest) = true := by
  simp only [chunkWFList, Bool.and_eq_true, Bool.not_eq_true']
  refine ⟨⟨⟨hk, ?_⟩, by simpa using hnk⟩, hrest⟩
  by_cases hp : v.hasProps = true
  · rw [if_pos hp]
    simp only [Bool.and_eq_true]
    exact ⟨(hv hp).1, by simpa using (hv hp).2⟩
  · rw [if_neg hp]

theorem chunkWFList_append_one : ∀ (ps : List (String × Schema)) (k : String)
    (v : Schema), chunkWFList ps = true → goodNameB k = true →
    k ∉ ps.map Prod.fst →
    (v.hasProps = true → chunkWF v = true ∧ flattenPathsVal v [] ≠ []) →
    chunkWFList (ps ++ [(k, v)]) = true
  | [], k, v, _, hk, _, hv => by
    simp only [List.nil_append]
    exact chunkWFList_intro hk hv (by simp) rfl
  | (k', v') :: rest, k, v, h, hk, hnk, hv => by
    obtain ⟨hk', hv', hnk', hrest⟩ := chunkWFList_cons h
    have hne : k ≠ k' := by
      intro e; exact hnk (by simp [e])
    simp only [List.cons_append]
    refine chunkWFList_intro hk' hv' ?_
      (chunkWFList_append_one rest k v hrest hk (fun m => hnk (by simp [m])) hv)
    simp only [List.map_append, List.mem_append]
    rintro (m | m)
    · exact hnk' m
    · simp at m
      exact hne m.symm

theorem chunkWFList_replace : ∀ (l₁ l₂ : List (String × Schema)) (k : String)
    (c v : Schema), chunkWFList (l₁ ++ (k, c) :: l₂) = true →
    (v.hasProps = true → chunkWF v = true ∧ flattenPathsVal v [] ≠ []) →
    chunkWFList (l₁ ++ (k, v) :: l₂) = true
  | [], l₂, k, c, v, h, hv => by
    simp only [List.nil_append] at h ⊢
    obtain ⟨hk, _, hnk, hrest⟩ := chunkWFList_cons h
    exact chunkWFList_intro hk hv hnk hrest
  | (k', v') :: l₁, l₂, k, c, v, h, hv => by
    simp only [List.cons_append] at h ⊢
    obtain ⟨hk', hv', hnk', hrest⟩ := chunkWFList_cons h
    refine chunkWFList_intro hk' hv' ?_ (chunkWFList_replace l₁ l₂ k c v hrest hv)
    intro m
    apply hnk'
    simp only [List.map_append, List.map_cons, List.mem_append, List.mem_cons] at m ⊢
    tauto

theorem chunkPaths_props {ps : List (String × Schema)} {i a} :
    chunkPaths (.mk (some ps) i a) = (flattenPathsList ps []).map Prod.fst := by
  unfold chunkPaths
  rw [flattenPathsVal_props rfl]

theorem chunkPaths_nodup (c : Schema) (h : chunkWF c = true) :
    (chunkPaths c).Nodup := by
  cases c with
  | mk props i a =>
    cases props with
    | none => simp [chunkWF] at h
    | some ps =>
      rw [chunkPaths_props]
      exact apart_nodup (flattenPathsList_apart ps []
        (chunkWFList_good ps (by simpa [chunkWF] using h)))

theorem addField_hasProps : ∀ (parts : List String) (c t : Schema), parts ≠ [] →
    (addFieldToChunk c parts t).hasProps = true
  | [], _, _, h => absurd rfl h
  | [last], Schema.mk props i a, t, _ => rfl
  | part :: r :: rs, Schema.mk props i a, t, _ => rfl

theorem flattenPaths_single_obj (k : String) (v : Schema) (pfx : List String)
    (hp : v.hasProps = true) :
    (flattenPathsList [(k, v)] pfx).map Prod.fst
      = (chunkPaths v).map (fun q' => pfx ++ k :: q') := by
  cases v with
  | mk props i a =>
    cases props with
    | none => simp [Schema.hasProps] at hp
    | some ps =>
      simp only [flattenPathsList, hp, if_true, List.append_nil]
      rw [flattenPathsVal_props rfl, chunkPaths_props,
        flattenPathsList_shift ps (pfx ++ [k]), List.map_map, List.map_map]
      apply List.map_congr_left
      intro pt _
      simp

theorem flattenPaths_single_leaf (k : String) (v : Schema) (pfx : List String)
    (hp : v.hasProps = false) :
    (flattenPathsList [(k, v)] pfx).map Prod.fst = [pfx ++ [k]] := by
  simp [flattenPathsList, hp]

theorem chunkPaths_emptyChunk {x y} : chunkPaths (Schema.mk (some []) x y) = [] := by
  rw [chunkPaths_props]
  rfl

theorem addField_keys :
    ∀ (parts : List String) (chunk t : Schema),
      parts ≠ [] → t.hasProps = false → chunkWF chunk = true →
      (∀ x ∈ parts, goodNameB x = true) →
      (∀ q ∈ chunkPaths chunk, PathsApart parts q) →
      chunkWF (addFieldToChunk chunk parts t) = true
      ∧ ∀ q, q ∈ chunkPaths (addFieldToChunk chunk parts t) ↔
          q = parts ∨ q ∈ chunkPaths chunk
  | [], _, _, hne, _, _, _, _ => absurd rfl hne
  | [last], Schema.mk props i a, t, _, hleaf, hwf, hgood, hapart => by
    cases props with
    | none => simp [chunkWF] at hwf
    | some ps =>
      have hwfl : chunkWFList ps = true := by simpa [chunkWF] using hwf
      have hlast : last ∉ ps.map Prod.fst := by
        intro hm
        obtain ⟨⟨k0, c⟩, hmem, he⟩ := List.mem_map.mp hm
        dsimp at he
        rw [he] at hmem
        by_cases hp : c.hasProps = true
        · obtain ⟨_, hc⟩ := chunkWFList_mem ps hwfl last c hmem
          obtain ⟨hwc, hfne⟩ := hc hp
          obtain ⟨⟨q', t'⟩, hq'⟩ := List.exists_mem_of_ne_nil _ hfne
          have hmem2 : ([] ++ last :: q', t') ∈ flattenPathsList ps [] :=
            flattenPathsList_mem_obj ps [] last c q' t' hmem hq'
          have hqmem : (last :: q') ∈ chunkPaths (Schema.mk (some ps) i a) := by
            rw [chunkPaths_props]
            exact List.mem_map.mpr ⟨_, hmem2, rfl⟩
          exact (hapart _ hqmem).1 (by simp [List.cons_prefix_cons])
        · have hpf : c.hasProps = false := by simpa using hp
          have hmem2 : ([] ++ [last], c) ∈ flattenPathsList ps [] :=
            flattenPathsList_mem_leaf ps [] last c hmem hpf
          have hqmem : [last] ∈ chunkPaths (Schema.mk (some ps) i a) := by
            rw [chunkPaths_props]
            exact List.mem_map.mpr ⟨_, hmem2, rfl⟩
          exact (hapart _ hqmem).1 (List.prefix_refl _)
      have haddeq : addFieldToChunk (Schema.mk (some ps) i a) [last] t
          = Schema.mk (some (ps ++ [(last, t)])) i a := by
        show Schema.mk (some (upsert ps last t)) i a = _
        rw [upsert_absent ps last t hlast]
      rw [haddeq]
      constructor
      · show chunkWFList (ps ++ [(last, t)]) = true
        exact chunkWFList_append_one ps last t hwfl (hgood last (by simp)) hlast
          (fun hp => absurd hp (by simp [hleaf]))
      · intro q
        rw [chunkPaths_props, chunkPaths_props, flattenPathsList_append,
          List.map_append, List.mem_append, flattenPaths_single_leaf last t [] hleaf]
        simp only [List.nil_append, List.mem_singleton]
        tauto
  | part :: r :: rs, Schema.mk props i a, t, _, hleaf, hwf, hgood, hapart => by
    cases props with
    | none => simp [chunkWF] at hwf
    | some ps =>
      have hwfl : chunkWFList ps = true := by simpa [chunkWF] using hwf
      cases hlu : pyLookup ps part with
      | none =>
        have hpart : part ∉ ps.map Prod.fst := (pyLookup_eq_none ps part).mp hlu
        have hrec := addField_keys (r :: rs)
          (Schema.mk (some []) none { typ := some "object" }) t (by simp) hleaf rfl
          (fun x hx => hgood x (by simp [hx]))
          (fun q hq => absurd (chunkPaths_emptyChunk ▸ hq) (by simp))
        obtain ⟨hwfI, hpathsI⟩ := hrec
        have hIprops := addField_hasProps (r :: rs)
          (Schema.mk (some []) none { typ := some "object" }) t (by simp)
        have hIne : flattenPathsVal (addFieldToChunk
            (Schema.mk (some []) none { typ := some "object" }) (r :: rs) t) [] ≠ [] := by
          intro he
          have hmem := (hpathsI (r :: rs)).mpr (Or.inl rfl)
          unfold chunkPaths at hmem
          rw [he] at hmem
          simp at hmem
        have hchild : (match pyLookup ps part with
            | some c => c
            | none => Schema.mk (some []) none { typ := some "object" })
            = Schema.mk (some []) none { typ := some "object" } := by rw [hlu]
        have haddeq : addFieldToChunk (Schema.mk (some ps) i a) (part :: r :: rs) t
            = Schema.mk (some (ps ++ [(part, addFieldToChunk
                (Schema.mk (some []) none { typ := some "object" }) (r :: rs) t)])) i a := by
          show Schema.mk (some (upsert ps part (addFieldToChunk
              (match pyLookup ps part with
               | some c => c
               | none => Schema.mk (some []) none { typ := some "object" })
              (r :: rs) t))) i a = _
          rw [hchild, upsert_absent ps part _ hpart]
        rw [haddeq]
        constructor
        · show chunkWFList (ps ++ [(part, _)]) = true
          exact chunkWFList_append_one ps part _ hwfl (hgood part (by simp)) hpart
            (fun _ => ⟨hwfI, hIne⟩)
        · intro q
          rw [chunkPaths_props, chunkPaths_props, flattenPathsList_append,
            List.map_append, List.mem_append, flattenPaths_single_obj part _ [] hIprops]
          simp only [List.nil_append, List.mem_map]
          constructor
          · rintro (hm | ⟨q', hq', he⟩)
            · exact Or.inr hm
            · rcases (hpathsI q').mp hq' with rfl | h0
              · exact Or.inl he.symm
              · rw [chunkPaths_emptyChunk] at h0
                simp at h0
          · rintro (rfl | hm)
            · exact Or.inr ⟨r :: rs, (hpathsI (r :: rs)).mpr (Or.inl rfl), rfl⟩
            · exact Or.inl hm
      | some c =>
        have hcmem : (part, c) ∈ ps := pyLookup_mem ps part c hlu
        have hcobj : c.hasProps = true := by
          by_contra hcp
          have hpf : c.hasProps = false := by simpa using hcp
          have hmem2 : ([] ++ [part], c) ∈ flattenPathsList ps [] :=
            flattenPathsList_mem_leaf ps [] part c hcmem hpf
          have hqmem : [part] ∈ chunkPaths (Schema.mk (some ps) i a) := by
            rw [chunkPaths_props]
            exact List.mem_map.mpr ⟨_, hmem2, rfl⟩
          exact (hapart _ hqmem).2 (by simp [List.cons_prefix_cons])
        have hcwf : chunkWF c = true := ((chunkWFList_mem ps hwfl part c hcmem).2 hcobj).1
        have hrecpre : ∀ q' ∈ chunkPaths c, PathsApart (r :: rs) q' := by
          intro q' hq'
          obtain ⟨⟨q0, t0⟩, ht0, he0⟩ := List.mem_map.mp hq'
          cases he0
          have hqmem : part :: q0 ∈ chunkPaths (Schema.mk (some ps) i a) := by
            rw [chunkPaths_props]
            exact List.mem_map.mpr
              ⟨_, flattenPathsList_mem_obj ps [] part c q0 t0 hcmem ht0, rfl⟩
          have hap := hapart _ hqmem
          constructor
          · exact fun hpre => hap.1 (List.cons_prefix_cons.mpr ⟨rfl, hpre⟩)
          · exact fun hpre => hap.2 (List.cons_prefix_cons.mpr ⟨rfl, hpre⟩)
        have hrec := addField_keys (r :: rs) c t (by simp) hleaf hcwf
          (fun x hx => hgood x (by simp [hx])) hrecpre
        obtain ⟨hwfI, hpathsI⟩ := hrec
        have hIprops := addField_hasProps (r :: rs) c t (by simp)
        have hIne : flattenPathsVal (addFieldToChunk c (r :: rs) t) [] ≠ [] := by
          intro he
          have hmem := (hpathsI (r :: rs)).mpr (Or.inl rfl)
          unfold chunkPaths at hmem
          rw [he] at hmem
          simp at hmem
        obtain ⟨l₁, l₂, hdecomp, hl₁, hupsert⟩ := upsert_decomp ps part c hlu
        have hchild : (match pyLookup ps part with
            | some c' => c'
            | none => Schema.mk (some []) none { typ := some "object" }) = c := by
          rw [hlu]
        have haddeq : addFieldToChunk (Schema.mk (some ps) i a) (part :: r :: rs) t
            = Schema.mk (some (l₁ ++ (part, addFieldToChunk c (r :: rs) t) :: l₂)) i a := by
          show Schema.mk (some (upsert ps part (addFieldToChunk
              (match pyLookup ps part with
               | some c' => c'
               | none => Schema.mk (some []) none { typ := some "object" })
              (r :: rs) t))) i a = _
          rw [hchild, hupsert]
        rw [haddeq]
        constructor
        · show chunkWFList (l₁ ++ (part, _) :: l₂) = true
          exact chunkWFList_replace l₁ l₂ part c _ (hdecomp ▸ hwfl)
            (fun _ => ⟨hwfI, hIne⟩)
        · intro q
          rw [chunkPaths_props, chunkPaths_props]
          rw [show (l₁ ++ (part, addFieldToChunk c (r :: rs) t) :: l₂)
              = l₁ ++ [(part, addFieldToChunk c (r :: rs) t)] ++ l₂ from by simp]
          rw [show ps = l₁ ++ [(part, c)] ++ l₂ from by simp [hdecomp]]
          rw [flattenPathsList_append, flattenPathsList_append,
            flattenPathsList_append, flattenPathsList_append]
          simp only [List.map_append, List.mem_append]
          rw [flattenPaths_single_obj part _ [] hIprops,
            flattenPaths_single_obj part c [] hcobj]
          simp only [List.nil_append, List.mem_map]
          constructor
          · rintro ((hm | ⟨q', hq', he⟩) | hm)
            · exact Or.inr (Or.inl (Or.inl hm))
            · rcases (hpathsI q').mp hq' with rfl | h0
              · exact Or.inl he.symm
              · exact Or.inr (Or.inl (Or.inr ⟨q', h0, he⟩))
            · exact Or.inr (Or.inr hm)
          · rintro (rfl | (hm | ⟨q', hq', he⟩) | hm)
            · exact Or.inl (Or.inr ⟨r :: rs, (hpathsI (r :: rs)).mpr (Or.inl rfl), rfl⟩)
            · exact Or.inl (Or.inl hm)
            · exact Or.inl (Or.inr ⟨q', (hpathsI q').mpr (Or.inr hq'), he⟩)
            · exact Or.inr hm

theorem visitFuel_self_mem (graph : List (String × DepInfo)) (fuel : ℕ)
    (field : String) (temp ordered : List String)
    (h1 : field ∉ temp) (h2 : field ∉ ordered) (hf : 1 ≤ fuel) :
    field ∈ visitFuel graph fuel field temp ordered := by
  cases fuel with
  | zero => omega
  | succ fuel =>
    rw [visitFuel, if_neg h1, if_neg h2]
    simp

theorem visitFuel_spec (graph : List (String × DepInfo)) :
    ∀ (fuel : ℕ) (field : String) (temp ordered : List String),
      ordered.Nodup → (∀ g ∈ temp, g ∉ ordered) →
      field ∈ graph.map Prod.fst → (∀ x ∈ ordered, x ∈ graph.map Prod.fst) →
      (visitFuel graph fuel field temp ordered).Nodup
      ∧ (∀ g ∈ temp, g ∉ visitFuel graph fuel field temp ordered)
      ∧ (∀ x ∈ visitFuel graph fuel field temp ordered, x ∈ graph.map Prod.fst)
      ∧ (∀ x ∈ ordered, x ∈ visitFuel graph fuel field temp ordered) := by
  intro fuel
  induction fuel with
  | zero =>
    intro field temp ordered h1 h2 _ h4
    exact ⟨h1, fun g hg hm => h2 g hg hm, h4, fun x hx => hx⟩
  | succ fuel ih =>
    intro field temp ordered h1 h2 h3 h4
    rw [visitFuel]
    by_cases ht : field ∈ temp
    · rw [if_pos ht]
      exact ⟨h1, fun g hg hm => h2 g hg hm, h4, fun x hx => hx⟩
    · rw [if_neg ht]
      by_cases ho : field ∈ ordered
      · rw [if_pos ho]
        exact ⟨h1, fun g hg hm => h2 g hg hm, h4, fun x hx => hx⟩
      · rw [if_neg ho]
        have hfold : ∀ (deps acc : List String),
            acc.Nodup → (∀ g ∈ field :: temp, g ∉ acc) →
            (∀ x ∈ acc, x ∈ graph.map Prod.fst) →
            (List.foldl (fun acc dep =>
                if (graph.map Prod.fst).contains dep = true then
                  visitFuel graph fuel dep (field :: temp) acc
                else acc) acc deps).Nodup
            ∧ (∀ g ∈ field :: temp, g ∉ List.foldl (fun acc dep =>
                if (graph.map Prod.fst).contains dep = true then
                  visitFuel graph fuel dep (field :: temp) acc
                else acc) acc deps)
            ∧ (∀ x ∈ List.foldl (fun acc dep =>
                if (graph.map Prod.fst).contains dep = true then
                  visitFuel graph fuel dep (field :: temp) acc
                else acc) acc deps, x ∈ graph.map Prod.fst)
            ∧ (∀ x ∈ acc, x ∈ List.foldl (fun acc dep =>
                if (graph.map Prod.fst).contains dep = true then
                  visitFuel graph fuel dep (field :: temp) acc
                else acc) acc deps) := by
          intro deps
          induction deps with
          | nil =>
            intro acc a1 a2 a3
            exact ⟨a1, a2, a3, fun x hx => hx⟩
          | cons dep deps ihd =>
            intro acc a1 a2 a3
            simp only [List.foldl_cons]
            by_cases hd : (graph.map Prod.fst).contains dep = true
            · rw [if_pos hd]
              have hdep : dep ∈ graph.map Prod.fst := by simpa using hd
              obtain ⟨v1, v2, v3, v4⟩ := ih dep (field :: temp) acc a1 a2 hdep a3
              obtain ⟨w1, w2, w3, w4⟩ :=
                ihd (visitFuel graph fuel dep (field :: temp) acc) v1 v2 v3
              exact ⟨w1, w2, w3, fun x hx => w4 x (v4 x hx)⟩
            · rw [if_neg hd]
              exact ihd acc a1 a2 a3
        have h2' : ∀ g ∈ field :: temp, g ∉ ordered := by
          intro g hg
          rcases List.mem_cons.mp hg with rfl | hg'
          · exact ho
          · exact h2 g hg'
        obtain ⟨f1, f2, f3, f4⟩ := hfold (depsOf graph field) ordered h1 h2' h4
        refine ⟨?_, ?_, ?_, ?_⟩
        · rw [List.nodup_append]
          exact ⟨f1, List.nodup_singleton _,
            by simpa using fun hmem => f2 field (by simp) hmem⟩
        · intro g hg hmem
          rcases List.mem_append.mp hmem with hm | hm
          · exact f2 g (List.mem_cons_of_mem _ hg) hm
          · simp only [List.mem_singleton] at hm
            exact ht (hm ▸ hg)
        · intro x hx
          rcases List.mem_append.mp hx with hm | hm
          · exact f3 x hm
          · simp only [List.mem_singleton] at hm
            exact hm ▸ h3
        · intro x hx
          exact List.mem_append.mpr (Or.inl (f4 x hx))

theorem getExtractionOrder_spec (s : Schema) :
    (getExtractionOrder s).Nodup
    ∧ ∀ x, x ∈ getExtractionOrder s ↔ x ∈ (buildDependencyGraph s).map Prod.fst := by
  have hfold : ∀ (l : List (String × DepInfo)) (acc : List String),
      (∀ kv ∈ l, kv ∈ buildDependencyGraph s) → acc.Nodup →
      (∀ x ∈ acc, x ∈ (buildDependencyGraph s).map Prod.fst) →
      (List.foldl (fun ordered kv =>
          if kv.1 ∈ ordered then ordered
          else visitFuel (buildDependencyGraph s)
            ((buildDependencyGraph s).length + 1) kv.1 [] ordered) acc l).Nodup
      ∧ (∀ x ∈ List.foldl (fun ordered kv =>
          if kv.1 ∈ ordered then ordered
          else visitFuel (buildDependencyGraph s)
            ((buildDependencyGraph s).length + 1) kv.1 [] ordered) acc l,
          x ∈ (buildDependencyGraph s).map Prod.fst)
      ∧ (∀ x ∈ acc, x ∈ List.foldl (fun ordered kv =>
          if kv.1 ∈ ordered then ordered
          else visitFuel (buildDependencyGraph s)
            ((buildDependencyGraph s).length + 1) kv.1 [] ordered) acc l)
      ∧ (∀ kv ∈ l, kv.1 ∈ List.foldl (fun ordered kv =>
          if kv.1 ∈ ordered then ordered
          else visitFuel (buildDependencyGraph s)
            ((buildDependencyGraph s).length + 1) kv.1 [] ordered) acc l) := by
    intro l
    induction l with
    | nil =>
      intro acc _ h1 h2
      exact ⟨h1, h2, fun x hx => hx, by simp⟩
    | cons kv l ihl =>
      intro acc hsub h1 h2
      simp only [List.foldl_cons]
      by_cases hin : kv.1 ∈ acc
      · rw [if_pos hin]
        obtain ⟨w1, w2, w3, w4⟩ := ihl acc (fun x hx => hsub x (by simp [hx])) h1 h2
        refine ⟨w1, w2, w3, ?_⟩
        intro kv' hkv'
        rcases List.mem_cons.mp hkv' with rfl | hm
        · exact w3 kv'.1 hin
        · exact w4 kv' hm
      · rw [if_neg hin]
        have hk : kv.1 ∈ (buildDependencyGraph s).map Prod.fst :=
          List.mem_map.mpr ⟨kv, hsub kv (by simp), rfl⟩
        obtain ⟨v1, v2, v3, v4⟩ := visitFuel_spec (buildDependencyGraph s)
          ((buildDependencyGraph s).length + 1) kv.1 [] acc h1 (by simp) hk h2
        have hself : kv.1 ∈ visitFuel (buildDependencyGraph s)
            ((buildDependencyGraph s).length + 1) kv.1 [] acc :=
          visitFuel_self_mem _ _ _ _ _ (by simp) hin (by omega)
        obtain ⟨w1, w2, w3, w4⟩ := ihl _ (fun x hx => hsub x (by simp [hx])) v1 v3
        refine ⟨w1, w2, fun x hx => w3 x (v4 x hx), ?_⟩
        intro kv' hkv'
        rcases List.mem_cons.mp hkv' with rfl | hm
        · exact w3 kv'.1 hself
        · exact w4 kv' hm
  obtain ⟨w1, w2, w3, w4⟩ := hfold (buildDependencyGraph s) []
    (fun kv hkv => hkv) (by simp) (by simp)
  refine ⟨w1, fun x => ⟨fun hx => w2 x hx, fun hx => ?_⟩⟩
  obtain ⟨kv, hkv, he⟩ := List.mem_map.mp hx
  exact he ▸ w4 kv hkv

theorem foldl_upsert_nodup {α : Type} : ∀ (l acc : List (String × α)),
    ((acc ++ l).map Prod.fst).Nodup →
    List.foldl (fun acc kv => upsert acc kv.1 kv.2) acc l = acc ++ l
  | [], acc, _ => by simp
  | (k, v) :: l, acc, h => by
    have hk : k ∉ acc.map Prod.fst := by
      intro hm
      simp only [List.map_append, List.map_cons] at h
      rw [List.nodup_append] at h
      exact h.2.2 hm (by simp)
    simp only [List.foldl_cons]
    rw [upsert_absent acc k v hk]
    have hrec := foldl_upsert_nodup l (acc ++ [(k, v)]) (by simpa using h)
    rw [hrec]
    simp

theorem dictOf_eq_self {α : Type} (l : List (String × α))
    (h : (l.map Prod.fst).Nodup) : dictOf l = l := by
  unfold dictOf
  simpa using foldl_upsert_nodup l [] (by simpa using h)

theorem buildDependencyGraph_keys (s : Schema) (h : goodSchemaB s = true) :
    (buildDependencyGraph s).map Prod.fst = flattenKeys s := by
  simp only [buildDependencyGraph]
  rw [dictOf_eq_self _ (flattenKeys_nodup s h), List.map_map]
  rfl

theorem getFieldSchema_paths :
    ∀ (ps : List (String × Schema)) (p : List String) (t : Schema)
      (i : Option Schema) (a : SchemaAttrs),
      goodPropsB ps = true → (p, t) ∈ flattenPathsList ps [] →
      getFieldSchema (.mk (some ps) i a) p = t
  | [], p, t, i, a, _, hm => by simp [flattenPathsList] at hm
  | (k, Schema.mk (some ps') vi va) :: rest, p, t, i, a, hg, hm => by
    obtain ⟨hk, hv, hnk, hrest⟩ := goodPropsB_cons hg
    have hnk' : k ∉ rest.map Prod.fst := by simpa using hnk
    have hflat : flattenPathsList ((k, Schema.mk (some ps') vi va) :: rest) []
        = (flattenPathsList ps' []).map (fun pt => (k :: pt.1, pt.2))
          ++ flattenPathsList rest [] := by
      simp only [flattenPathsList, Schema.hasProps, if_true]
      rw [flattenPathsVal_props rfl, flattenPathsList_shift ps' ([] ++ [k])]
      simp
    rw [hflat] at hm
    rcases List.mem_append.mp hm with h1 | h2
    · obtain ⟨⟨p', t'⟩, hm', he⟩ := List.mem_map.mp h1
      rw [Prod.mk.injEq] at he
      obtain ⟨he1, he2⟩ := he
      dsimp only at he1 he2
      rw [← he1, ← he2]
      have hstep : getFieldSchema
          (Schema.mk (some ((k, Schema.mk (some ps') vi va) :: rest)) i a) (k :: p')
          = getFieldSchema (Schema.mk (some ps') vi va) p' := by
        simp [getFieldSchema, Schema.props, pyLookup]
      rw [hstep]
      exact getFieldSchema_paths ps' p' t' vi va (goodSchemaB_props rfl hv) hm'
    · obtain ⟨k₂, suf, hk₂, hpe⟩ := flattenPathsList_shape rest [] p t h2
      simp only [List.nil_append] at hpe
      have hne : k ≠ k₂ := fun e => hnk' (e ▸ hk₂)
      have hstep : getFieldSchema
          (Schema.mk (some ((k, Schema.mk (some ps') vi va) :: rest)) i a) p
          = getFieldSchema (Schema.mk (some rest) i a) p := by
        rw [hpe]
        simp [getFieldSchema, Schema.props, pyLookup, if_neg hne]
      rw [hstep]
      exact getFieldSchema_paths rest p t i a hrest h2
  | (k, Schema.mk none vi va) :: rest, p, t, i, a, hg, hm => by
    obtain ⟨hk, hv, hnk, hrest⟩ := goodPropsB_cons hg
    have hnk' : k ∉ rest.map Prod.fst := by simpa using hnk
    have hflat : flattenPathsList ((k, Schema.mk none vi va) :: rest) []
        = ([k], Schema.mk none vi va) :: flattenPathsList rest [] := by
      simp [flattenPathsList, Schema.hasProps]
    rw [hflat] at hm
    rcases List.mem_cons.mp hm with he | h2
    · rw [Prod.mk.injEq] at he
      obtain ⟨he1, he2⟩ := he
      subst he2
      subst he1
      simp [getFieldSchema, Schema.props, pyLookup]
    · obtain ⟨k₂, suf, hk₂, hpe⟩ := flattenPathsList_shape rest [] p t h2
      simp only [List.nil_append] at hpe
      have hne : k ≠ k₂ := fun e => hnk' (e ▸ hk₂)
      have hstep : getFieldSchema
          (Schema.mk (some ((k, Schema.mk none vi va) :: rest)) i a) p
          = getFieldSchema (Schema.mk (some rest) i a) p := by
        rw [hpe]
        simp [getFieldSchema, Schema.props, pyLookup, if_neg hne]
      rw [hstep]
      exact getFieldSchema_paths rest p t i a hrest h2

theorem pathsApart_symm : Symmetric PathsApart := fun _ _ hab => ⟨hab.2, hab.1⟩

theorem flattenPathsList_leaf :
    ∀ (ps : List (String × Schema)) (pfx : List String) (p : List String) (t : Schema),
      (p, t) ∈ flattenPathsList ps pfx → t.hasProps = false
  | [], _, _, _, hm => by simp [flattenPathsList] at hm
  | (k, Schema.mk (some ps') i a) :: rest, pfx, p, t, hm => by
    simp only [flattenPathsList, Schema.hasProps, if_true, List.mem_append] at hm
    rcases hm with h1 | h2
    · rw [flattenPathsVal_props rfl] at h1
      exact flattenPathsList_leaf ps' (pfx ++ [k]) p t h1
    · exact flattenPathsList_leaf rest pfx p t h2
  | (k, Schema.mk none i a) :: rest, pfx, p, t, hm => by
    simp only [flattenPathsList, Schema.hasProps, Bool.false_eq_true, if_false,
      List.singleton_append, List.mem_cons] at hm
    rcases hm with he | h2
    · rw [Prod.mk.injEq] at he
      rw [he.2]
      rfl
    · exact flattenPathsList_leaf rest pfx p t h2

theorem chunkWF_paths_empty_iff (cur : Schema) (h : chunkWF cur = true) :
    (cur.props.getD []).isEmpty = true ↔ chunkPaths cur = [] := by
  cases cur with
  | mk props i a =>
    cases props with
    | none => simp [chunkWF] at h
    | some ps =>
      have hwfl : chunkWFList ps = true := by simpa [chunkWF] using h
      cases ps with
      | nil => simp [Schema.props, chunkPaths_emptyChunk]
      | cons kv rest =>
        simp only [Schema.props, Option.getD, List.isEmpty_cons, chunkPaths_props]
        constructor
        · intro hc; cases hc
        · intro hc
          exact absurd hc (by
            have := chunkWFList_flatten_ne (kv :: rest) [] hwfl (by simp)
            simpa [List.map_eq_nil_iff] using this)

theorem schemaField_facts (schema : Schema) (hgs : goodSchemaB schema = true)
    (p : List String) (t : Schema) (hmem : (p, t) ∈ flattenPathsVal schema []) :
    t.hasProps = false ∧ p ≠ [] ∧ (∀ x ∈ p, goodNameB x = true)
    ∧ getFieldSchema schema p = t := by
  cases schema with
  | mk props i a =>
    cases props with
    | none => simp [flattenPathsVal] at hmem
    | some ps =>
      rw [flattenPathsVal_props rfl] at hmem
      have hgp : goodPropsB ps = true := by simpa [goodSchemaB] using hgs
      refine ⟨flattenPathsList_leaf ps [] p t hmem, ?_,
        flattenPathsList_good ps [] hgp (by simp) p t hmem,
        getFieldSchema_paths ps p t i a hgp hmem⟩
      obtain ⟨k, suf, _, hpe⟩ := flattenPathsList_shape ps [] p t hmem
      simp [hpe]

theorem chunkLoop_partition (estF : String → Schema → ℕ) (schema : Schema)
    (graph : List (String × DepInfo)) (maxT : ℕ) (hgs : goodSchemaB schema = true) :
    ∀ (fields : List String) (cur : Schema) (curTok cid : ℕ)
      (chunks : List SchemaChunk),
      chunkWF cur = true →
      (∀ c ∈ chunks, chunkWF c.schema = true) →
      (∀ fp ∈ fields, ∃ t, (splitDots fp, t) ∈ flattenPathsVal schema []) →
      List.Pairwise PathsApart
        ((chunks.flatMap fun c => chunkPaths c.schema) ++ chunkPaths cur
          ++ fields.map splitDots) →
      (∀ c ∈ chunkLoop estF schema graph maxT fields cur curTok cid chunks,
          chunkWF c.schema = true)
      ∧ List.Pairwise PathsApart
          ((chunkLoop estF schema graph maxT fields cur curTok cid chunks).flatMap
            fun c => chunkPaths c.schema)
      ∧ ∀ q, q ∈ ((chunkLoop estF schema graph maxT fields cur curTok cid chunks).flatMap
            fun c => chunkPaths c.schema) ↔
          q ∈ (chunks.flatMap fun c => chunkPaths c.schema) ∨ q ∈ chunkPaths cur
            ∨ q ∈ fields.map splitDots := by
  intro fields
  induction fields with
  | nil =>
    intro cur curTok cid chunks hwf hwfc _ hpw
    rw [chunkLoop]
    split_ifs with hemp
    · have hpk : chunkPaths cur = [] := (chunkWF_paths_empty_iff cur hwf).mp hemp
      refine ⟨hwfc, (List.pairwise_append.mp (List.pairwise_append.mp hpw).1).1, ?_⟩
      intro q
      simp [hpk]
    · refine ⟨?_, ?_, ?_⟩
      · intro c hc
        rcases List.mem_append.mp hc with hm | hm
        · exact hwfc c hm
        · simp only [List.mem_singleton] at hm
          rw [hm]
          exact hwf
      · have heq : ((chunks ++ [mkChunk cur cid graph]).flatMap
            fun c => chunkPaths c.schema)
            = (chunks.flatMap fun c => chunkPaths c.schema) ++ chunkPaths cur := by
          simp [mkChunk]
        rw [heq]
        exact (List.pairwise_append.mp hpw).1
      · intro q
        have heq : ((chunks ++ [mkChunk cur cid graph]).flatMap
            fun c => chunkPaths c.schema)
            = (chunks.flatMap fun c => chunkPaths c.schema) ++ chunkPaths cur := by
          simp [mkChunk]
        rw [heq]
        simp only [List.mem_append, List.map_nil, List.not_mem_nil, or_false]
  | cons fp rest ih =>
    intro cur curTok cid chunks hwf hwfc hfields hpw
    obtain ⟨t, hmem⟩ := hfields fp (by simp)
    obtain ⟨hleaf, hpne, hpgood, hgfs⟩ := schemaField_facts schema hgs _ t hmem
    simp only [List.map_cons] at hpw
    rw [chunkLoop]
    simp only [hgfs]
    split_ifs with hcond
    · obtain ⟨hWFn, hPn⟩ := addField_keys (splitDots fp) emptyChunk t hpne hleaf rfl
        hpgood (fun q hq => absurd (chunkPaths_emptyChunk ▸ hq) (by simp))
      have hPKn : chunkPaths (addFieldToChunk emptyChunk (splitDots fp) t)
          = [splitDots fp] :=
        eq_singleton_of_nodup_mem (chunkPaths_nodup _ hWFn)
          (fun q => by
            have h0 : chunkPaths emptyChunk = [] := chunkPaths_emptyChunk
            rw [hPn q, h0]; simp)
      have hflat : ((chunks ++ [mkChunk cur cid graph]).flatMap
          fun c => chunkPaths c.schema)
          = (chunks.flatMap fun c => chunkPaths c.schema) ++ chunkPaths cur := by
        simp [mkChunk]
      have hpw' : List.Pairwise PathsApart
          (((chunks ++ [mkChunk cur cid graph]).flatMap fun c => chunkPaths c.schema)
            ++ chunkPaths (addFieldToChunk emptyChunk (splitDots fp) t)
            ++ rest.map splitDots) := by
        rw [hflat, hPKn]
        have hlist : ((chunks.flatMap fun c => chunkPaths c.schema) ++ chunkPaths cur)
            ++ [splitDots fp] ++ rest.map splitDots
            = ((chunks.flatMap fun c => chunkPaths c.schema) ++ chunkPaths cur)
              ++ (splitDots fp :: rest.map splitDots) := by
          simp [List.append_assoc]
        rw [hlist]
        exact hpw
      obtain ⟨w1, w2, w3⟩ := ih (addFieldToChunk emptyChunk (splitDots fp) t)
        (estF fp t) (cid + 1) (chunks ++ [mkChunk cur cid graph]) hWFn
        (by
          intro c hc
          rcases List.mem_append.mp hc with hm | hm
          · exact hwfc c hm
          · simp only [List.mem_singleton] at hm
            rw [hm]
            exact hwf)
        (fun fp' h => hfields fp' (List.mem_cons_of_mem _ h)) hpw'
      refine ⟨w1, w2, ?_⟩
      intro q
      rw [w3 q, hflat, hPKn]
      simp only [List.mem_append, List.mem_singleton, List.mem_cons, List.map_cons]
      tauto
    · have hcross : ∀ q ∈ chunkPaths cur, PathsApart (splitDots fp) q := by
        intro q hq
        have h1 := (List.pairwise_append.mp hpw).2.2
        exact pathsApart_symm (h1 q (List.mem_append.mpr (Or.inr hq))
          (splitDots fp) (by simp))
      obtain ⟨hWFn, hPn⟩ := addField_keys (splitDots fp) cur t hpne hleaf hwf
        hpgood hcross
      have hnotin : splitDots fp ∉ chunkPaths cur :=
        fun hm => (hcross _ hm).1 (List.prefix_refl _)
      have hperm1 : (chunkPaths (addFieldToChunk cur (splitDots fp) t)).Perm
          (splitDots fp :: chunkPaths cur) := by
        refine (List.perm_ext_iff_of_nodup (chunkPaths_nodup _ hWFn)
          (List.nodup_cons.mpr ⟨hnotin, chunkPaths_nodup cur hwf⟩)).mpr ?_
        intro q
        rw [hPn q]
        simp
      have hpermBig : ((chunks.flatMap fun c => chunkPaths c.schema)
          ++ chunkPaths (addFieldToChunk cur (splitDots fp) t)
          ++ rest.map splitDots).Perm
          (((chunks.flatMap fun c => chunkPaths c.schema) ++ chunkPaths cur)
            ++ (splitDots fp :: rest.map splitDots)) := by
        have h2 : ((chunks.flatMap fun c => chunkPaths c.schema)
            ++ chunkPaths (addFieldToChunk cur (splitDots fp) t)).Perm
            ((chunks.flatMap fun c => chunkPaths c.schema)
              ++ (splitDots fp :: chunkPaths cur)) :=
          List.Perm.append_left _ hperm1
        have h3 : (((chunks.flatMap fun c => chunkPaths c.schema)
            ++ chunkPaths (addFieldToChunk cur (splitDots fp) t))
            ++ rest.map splitDots).Perm
            (((chunks.flatMap fun c => chunkPaths c.schema)
              ++ (splitDots fp :: chunkPaths cur)) ++ rest.map splitDots) :=
          List.Perm.append_right _ h2
        have h4 : (((chunks.flatMap fun c => chunkPaths c.schema)
            ++ (splitDots fp :: chunkPaths cur)) ++ rest.map splitDots).Perm
            ((splitDots fp :: ((chunks.flatMap fun c => chunkPaths c.schema)
              ++ chunkPaths cur)) ++ rest.map splitDots) :=
          List.Perm.append_right _ List.perm_middle
        have h5 : (((chunks.flatMap fun c => chunkPaths c.schema) ++ chunkPaths cur)
            ++ (splitDots fp :: rest.map splitDots)).Perm
            (splitDots fp :: (((chunks.flatMap fun c => chunkPaths c.schema)
              ++ chunkPaths cur) ++ rest.map splitDots)) :=
          List.perm_middle
        have h6 : ((splitDots fp :: ((chunks.flatMap fun c => chunkPaths c.schema)
            ++ chunkPaths cur)) ++ rest.map splitDots)
            = splitDots fp :: (((chunks.flatMap fun c => chunkPaths c.schema)
              ++ chunkPaths cur) ++ rest.map splitDots) := by
          simp
        exact ((h3.trans h4).trans (h6 ▸ List.Perm.refl _)).trans h5.symm
      have hpw' : List.Pairwise PathsApart
          ((chunks.flatMap fun c => chunkPaths c.schema)
            ++ chunkPaths (addFieldToChunk cur (splitDots fp) t)
            ++ rest.map splitDots) :=
        (List.Perm.pairwise_iff (fun {a b} hab => pathsApart_symm hab) hpermBig).mpr hpw
      obtain ⟨w1, w2, w3⟩ := ih (addFieldToChunk cur (splitDots fp) t)
        (curTok + estF fp t) cid chunks hWFn hwfc
        (fun fp' h => hfields fp' (List.mem_cons_of_mem _ h)) hpw'
      refine ⟨w1, w2, ?_⟩
      intro q
      rw [w3 q, hPn q]
      simp only [List.map_cons, List.mem_cons]
      tauto

theorem schemaPaths_apart (s : Schema) (hgs : goodSchemaB s = true) :
    List.Pairwise PathsApart ((flattenPathsVal s []).map Prod.fst) := by
  cases s with
  | mk props i a =>
    cases props with
    | none => simp [flattenPathsVal]
    | some ps =>
      rw [flattenPathsVal_props rfl]
      exact flattenPathsList_apart ps [] (by simpa [goodSchemaB] using hgs)

theorem flattenKeys_eq_joinDots (s : Schema) (hgs : goodSchemaB s = true) :
    flattenKeys s = (chunkPaths s).map joinDots := by
  unfold flattenKeys chunkPaths
  rw [flattenSchemaVal_eq_paths s hgs, List.map_map, List.map_map]
  rfl

theorem chunkWF_goodSchemaB (s : Schema) (h : chunkWF s = true) :
    goodSchemaB s = true := by
  cases s with
  | mk props i a =>
    cases props with
    | none => simp [chunkWF] at h
    | some ps =>
      have hl : chunkWFList ps = true := by simpa [chunkWF] using h
      simpa [goodSchemaB] using chunkWFList_good ps hl

theorem flatMap_eq_map_flatMap {α β γ : Type} (l : List α) (g : α → List β)
    (f : β → γ) (k : α → List γ) (h : ∀ a ∈ l, k a = (g a).map f) :
    l.flatMap k = (l.flatMap g).map f := by
  induction l with
  | nil => rfl
  | cons a rest ih =>
    simp only [List.flatMap_cons, List.map_append]
    rw [h a (by simp), ih (fun a ha => h a (by simp [ha]))]

theorem flatMap_map_schema (f : SchemaChunk → SchemaChunk)
    (hf : ∀ c, (f c).schema = c.schema) (l : List SchemaChunk)
    (k : Schema → List String) :
    (l.map f).flatMap (fun c => k c.schema) = l.flatMap (fun c => k c.schema) := by
  induction l with
  | nil => rfl
  | cons a rest ih => simp [List.flatMap_cons, hf, ih]

theorem createDependencyChunks_perm (estF : String → Schema → ℕ) (maxT : ℕ)
    (schema : Schema) (hgs : goodSchemaB schema = true) :
    ((createDependencyChunks estF schema (buildDependencyGraph schema)
        maxT).flatMap fun c => flattenKeys c.schema).Perm (flattenKeys schema) := by
  obtain ⟨hnodup, hmemord⟩ := getExtractionOrder_spec schema
  have hkeys := buildDependencyGraph_keys schema hgs
  have hmemord' : ∀ x, x ∈ getExtractionOrder schema ↔ x ∈ flattenKeys schema :=
    fun x => by rw [hmemord x, hkeys]
  have hpairs : List.Pairwise PathsApart ((flattenPathsVal schema []).map Prod.fst) :=
    schemaPaths_apart schema hgs
  have hpnodup : ((flattenPathsVal schema []).map Prod.fst).Nodup := apart_nodup hpairs
  have hkeq : flattenKeys schema
      = ((flattenPathsVal schema []).map Prod.fst).map joinDots :=
    flattenKeys_eq_joinDots schema hgs
  have hfacts : ∀ p ∈ (flattenPathsVal schema []).map Prod.fst,
      p ≠ [] ∧ (∀ x ∈ p, goodNameB x = true) := by
    intro p hp
    obtain ⟨⟨p', t⟩, hm, he⟩ := List.mem_map.mp hp
    dsimp only at he
    rw [← he]
    obtain ⟨_, h2, h3, _⟩ := schemaField_facts schema hgs p' t hm
    exact ⟨h2, h3⟩
  have hsplit : ∀ p ∈ (flattenPathsVal schema []).map Prod.fst,
      splitDots (joinDots p) = p :=
    fun p hp => splitDots_joinDots p (hfacts p hp).1 (hfacts p hp).2
  have hqmem : ∀ q, q ∈ (getExtractionOrder schema).map splitDots ↔
      q ∈ (flattenPathsVal schema []).map Prod.fst := by
    intro q
    constructor
    · intro hq
      obtain ⟨fp, hfp, hfe⟩ := List.mem_map.mp hq
      have hfk : fp ∈ flattenKeys schema := (hmemord' fp).mp hfp
      rw [hkeq] at hfk
      obtain ⟨p, hp, hpe⟩ := List.mem_map.mp hfk
      rw [← hfe, ← hpe, hsplit p hp]
      exact hp
    · intro hq
      refine List.mem_map.mpr ⟨joinDots q, ?_, hsplit q hq⟩
      rw [hmemord' (joinDots q), hkeq]
      exact List.mem_map_of_mem joinDots hq
  have hporder : List.Pairwise PathsApart
      ((getExtractionOrder schema).map splitDots) := by
    rw [List.pairwise_map]
    refine List.Pairwise.imp_of_mem ?_ hnodup
    intro a b ha hb hne
    have hak : a ∈ flattenKeys schema := (hmemord' a).mp ha
    have hbk : b ∈ flattenKeys schema := (hmemord' b).mp hb
    rw [hkeq] at hak hbk
    obtain ⟨p, hp, hpe⟩ := List.mem_map.mp hak
    obtain ⟨r, hr, hre⟩ := List.mem_map.mp hbk
    rw [← hpe, ← hre, hsplit p hp, hsplit r hr]
    refine hpairs.forall pathsApart_symm hp hr ?_
    intro hcontra
    exact hne (by rw [← hpe, ← hre, hcontra])
  have hfieldsOrd : ∀ fp ∈ getExtractionOrder schema,
      ∃ t, (splitDots fp, t) ∈ flattenPathsVal schema [] := by
    intro fp hfp
    have hfk : fp ∈ flattenKeys schema := (hmemord' fp).mp hfp
    rw [hkeq] at hfk
    obtain ⟨p, hp, hpe⟩ := List.mem_map.mp hfk
    obtain ⟨⟨p', t⟩, hm, he⟩ := List.mem_map.mp hp
    dsimp only at he
    rw [he] at hm
    exact ⟨t, by rw [← hpe, hsplit p hp]; exact hm⟩
  have h0 : chunkPaths emptyChunk = [] := chunkPaths_emptyChunk
  have hpw0 : List.Pairwise PathsApart
      ((([] : List SchemaChunk).flatMap fun c => chunkPaths c.schema)
        ++ chunkPaths emptyChunk
        ++ (getExtractionOrder schema).map splitDots) := by
    have hle : (([] : List SchemaChunk).flatMap fun c => chunkPaths c.schema)
        ++ chunkPaths emptyChunk ++ (getExtractionOrder schema).map splitDots
        = (getExtractionOrder schema).map splitDots := by
      rw [h0]
      simp
    rw [hle]
    exact hporder
  obtain ⟨hwfout, hpwout, hmemout⟩ := chunkLoop_partition estF schema
    (buildDependencyGraph schema) maxT hgs (getExtractionOrder schema)
    emptyChunk 0 0 [] rfl (by simp) hfieldsOrd hpw0
  have hout : ((createDependencyChunks estF schema (buildDependencyGraph schema)
      maxT).flatMap fun c => flattenKeys c.schema)
      = (chunkLoop estF schema (buildDependencyGraph schema) maxT
          (getExtractionOrder schema) emptyChunk 0 0 []).flatMap
        fun c => flattenKeys c.schema := by
    simp only [createDependencyChunks]
    exact flatMap_map_schema
      (fun c => { c with total_chunks :=
        (chunkLoop estF schema (buildDependencyGraph schema) maxT
          (getExtractionOrder schema) emptyChunk 0 0 []).length })
      (fun c => rfl) _ _
  have hstr : (chunkLoop estF schema (buildDependencyGraph schema) maxT
      (getExtractionOrder schema) emptyChunk 0 0 []).flatMap
        (fun c => flattenKeys c.schema)
      = ((chunkLoop estF schema (buildDependencyGraph schema) maxT
          (getExtractionOrder schema) emptyChunk 0 0 []).flatMap
        fun c => chunkPaths c.schema).map joinDots := by
    refine flatMap_eq_map_flatMap _ _ _ _ ?_
    intro c hc
    exact flattenKeys_eq_joinDots c.schema (chunkWF_goodSchemaB c.schema (hwfout c hc))
  have hpermPaths : ((chunkLoop estF schema (buildDependencyGraph schema) maxT
      (getExtractionOrder schema) emptyChunk 0 0 []).flatMap
        fun c => chunkPaths c.schema).Perm
      ((flattenPathsVal schema []).map Prod.fst) := by
    refine (List.perm_ext_iff_of_nodup (apart_nodup hpwout) hpnodup).mpr ?_
    intro q
    rw [hmemout q, h0]
    simp only [List.flatMap_nil, List.not_mem_nil, false_or]
    exact hqmem q
  rw [hout, hstr, hkeq]
  exact hpermPaths.map joinDots

/-- C4 (amended): for every schema whose property names are non-empty and
dot-free (goodSchemaB), the chunks produced by chunk_schema partition the
flattened field paths — the concatenation of the chunks' flattened keys is a
permutation of the full schema's flattened keys, so each path occurs in
exactly one chunk — and when the whole schema's estimated tokens fit the
budget the result is the single chunk
{schema, chunk_id 0, total_chunks 1, no dependencies, priority high}.
The unamended claim is refuted by chunk_schema_partition_counterexample. -/
theorem chunk_schema_partition (est : Schema → ℕ) (estF : String → Schema → ℕ)
    (maxT : ℕ) (schema : Schema) (hgs : goodSchemaB schema = true) :
    ((chunkSchema est estF maxT schema).flatMap
        fun c => flattenKeys c.schema).Perm (flattenKeys schema)
    ∧ (est schema ≤ maxT →
        chunkSchema est estF maxT schema
          = [{ schema := schema, chunk_id := 0, total_chunks := 1,
               dependencies := [], priority := "high" }]) := by
  constructor
  · unfold chunkSchema
    split_ifs with hfit
    · have hle : (([({ schema := schema, chunk_id := 0, total_chunks := 1,
                       dependencies := ([] : List String),
                       priority := "high" } : SchemaChunk)]).flatMap
            fun c => flattenKeys c.schema) = flattenKeys schema := by
        simp
      rw [hle]
    · exact createDependencyChunks_perm estF maxT schema hgs
  · intro hfit
    unfold chunkSchema
    rw [if_pos hfit]

/-- C4 counterexample to the unamended claim: with the dotted property name
'a.b' next to the object chain a -> b -> c, chunk_schema (forced into the
dependency-chunking path, one field per chunk) loses the flattened key 'a.b'
and emits 'a.b.c' twice, so the chunks do not partition the flattened
fields. -/
theorem chunk_schema_partition_counterexample :
    "a.b" ∈ flattenKeys cSchemaDotted4
    ∧ "a.b" ∉ ((chunkSchema (fun _ => 1000) (fun _ _ => 1) 1
        cSchemaDotted4).flatMap fun c => flattenKeys c.schema)
    ∧ ¬ ((chunkSchema (fun _ => 1000) (fun _ _ => 1) 1
        cSchemaDotted4).flatMap fun c => flattenKeys c.schema).Nodup := by
  decide

/-- Witness: the C4 theorem applied at a concrete good-named schema and a
budget the whole schema fits, with both hypotheses discharged by decide. -/
theorem chunk_schema_partition_witness :
    goodSchemaB wSchemaPlain = true
    ∧ (((chunkSchema (fun _ => 3) (fun _ _ => 1) 5 wSchemaPlain).flatMap
          fun c => flattenKeys c.schema).Perm (flattenKeys wSchemaPlain)
        ∧ ((fun _ : Schema => 3) wSchemaPlain ≤ 5 →
            chunkSchema (fun _ => 3) (fun _ _ => 1) 5 wSchemaPlain
              = [{ schema := wSchemaPlain, chunk_id := 0, total_chunks := 1,
                   dependencies := [], priority := "high" }])) :=
  ⟨by decide, chunk_schema_partition (fun _ => 3) (fun _ _ => 1) 5 wSchemaPlain
    (by decide)⟩

theorem extractComplexLoop_results
    (attempt : ℕ → Except String (List (String × JValue) × Confidence × ℕ)) :
    ∀ (cs : List SchemaChunk) (n : ℕ) (results : List ChunkItem)
      (prev : List (String × JValue)) (tok : ℕ),
      (extractComplexLoop attempt cs n results prev tok).1
        = results ++ cs.mapIdx fun i => chunkAttemptEntry attempt (n + i)
  | [], n, results, prev, tok => by
    simp [extractComplexLoop]
  | c :: rest, n, results, prev, tok => by
    have hfun : (fun i => chunkAttemptEntry attempt (n + (i + 1)))
        = (fun i => chunkAttemptEntry attempt (n + 1 + i)) := by
      funext i
      have h : n + (i + 1) = n + 1 + i := by omega
      rw [h]
    rw [extractComplexLoop]
    cases hn : attempt n with
    | ok v =>
      obtain ⟨d, cf, tok'⟩ := v
      rw [extractComplexLoop_results attempt rest (n + 1) _ _ _]
      rw [List.mapIdx_cons, hfun]
      have hent : chunkAttemptEntry attempt (n + 0) c
          = { data := d, confidence := cf, chunk_id := some c.chunk_id,
              priority := some c.priority } := by
        simp [chunkAttemptEntry, hn]
      rw [hent]
      simp
    | error e =>
      rw [extractComplexLoop_results attempt rest (n + 1) _ _ _]
      rw [List.mapIdx_cons, hfun]
      have hent : chunkAttemptEntry attempt (n + 0) c
          = { data := [], confidence := ⟨0, []⟩, chunk_id := some c.chunk_id,
              error := some e } := by
        simp [chunkAttemptEntry, hn]
      rw [hent]
      simp

theorem extractHierarchicalLoop_allfail
    (attempt : ℕ → Except String (List (String × JValue) × Confidence × ℕ))
    (hH : ∀ n, ∃ e, attempt n = Except.error e) :
    ∀ (levels : List (ℕ × List String)) (n : ℕ)
      (result : List (String × JValue)) (confs : List (String × ℚ)) (tok : ℕ),
      extractHierarchicalLoop attempt levels n result confs tok
        = (result, confs, tok)
  | [], _, _, _, _ => rfl
  | lv :: rest, n, result, confs, tok => by
    obtain ⟨e, he⟩ := hH n
    rw [extractHierarchicalLoop, he]
    exact extractHierarchicalLoop_allfail attempt hH rest (n + 1) result confs tok

/-- C5 (amended): in the chunked strategy every per-chunk failure is caught
locally and recorded as an error-tagged, empty-data, zero-confidence entry
while processing continues — chunk_results holds exactly one entry per chunk,
the except-branch literal at every failed call — so no single failure aborts
the extraction.  In the hierarchical strategy a failed level is caught and
skipped with `continue` but nothing is recorded: when every level call fails
the controller still returns a result, but it is the pristine empty result
with no error tag and no zero-confidence contributions (this refutes the
recorded-contribution half of the original claim for the hierarchical
strategy; see extract_failure_policy_counterexample). -/
theorem extract_failure_policy
    (attempt attemptH :
      ℕ → Except String (List (String × JValue) × Confidence × ℕ))
    (schemaChunks : List SchemaChunk) (schema : Schema)
    (hH : ∀ n, ∃ e, attemptH n = Except.error e) :
    (extractComplex attempt schemaChunks).chunk_results
      = some ((sortChunks schemaChunks).mapIdx (chunkAttemptEntry attempt))
    ∧ extractHierarchical attemptH schema
      = { data := [], confidence := ⟨0, []⟩,
          strategy := some "multi_pass_hierarchical",
          token_usage := some 0 } := by
  constructor
  · show some (extractComplexLoop attempt (sortChunks schemaChunks) 0 [] [] 0).1
      = _
    rw [extractComplexLoop_results attempt (sortChunks schemaChunks) 0 [] [] 0]
    simp
  · show ({ data := (extractHierarchicalLoop attemptH
        (groupFieldsByLevel (getExtractionOrder schema)) 0 [] [] 0).1, .. }
        : ExtractionResult) = _
    rw [extractHierarchicalLoop_allfail attemptH hH
      (groupFieldsByLevel (getExtractionOrder schema)) 0 [] [] 0]
    rfl

/-- C5 counterexample to the unamended claim: every level call of the
hierarchical strategy fails, yet the returned result carries no error tag, no
zero-confidence field contributions and no chunk entries — the failures were
silently skipped (`continue` after `print`), not recorded as error-tagged
empty-data zero-confidence contributions. -/
theorem extract_failure_policy_counterexample :
    (extractHierarchical (fun _ => Except.error "API call failed")
        wSchemaPlain).error = none
    ∧ (extractHierarchical (fun _ => Except.error "API call failed")
        wSchemaPlain).data = []
    ∧ (extractHierarchical (fun _ => Except.error "API call failed")
        wSchemaPlain).confidence.fields = []
    ∧ (extractHierarchical (fun _ => Except.error "API call failed")
        wSchemaPlain).chunk_results = none :=
  ⟨rfl, rfl, rfl, rfl⟩

/-- Witness: the C5 theorem applied to a concrete one-chunk list, a failing
chunk oracle and an always-failing level oracle on a concrete schema. -/
theorem extract_failure_policy_witness :
    (∀ n : ℕ, ∃ e, (fun _ : ℕ =>
        (Except.error "boom" :
          Except String (List (String × JValue) × Confidence × ℕ))) n
      = Except.error e)
    ∧ ((extractComplex (fun _ => Except.error "boom")
          [{ schema := wSchemaPlain, chunk_id := 0, total_chunks := 1,
             dependencies := [], priority := "high" }]).chunk_results
        = some ((sortChunks
            [{ schema := wSchemaPlain, chunk_id := 0, total_chunks := 1,
               dependencies := [], priority := "high" }]).mapIdx
          (chunkAttemptEntry (fun _ => Except.error "boom")))
      ∧ extractHierarchical (fun _ => Except.error "boom") wSchemaPlain
        = { data := [], confidence := ⟨0, []⟩,
            strategy := some "multi_pass_hierarchical",
            token_usage := some 0 }) :=
  ⟨fun _ => ⟨"boom", rfl⟩,
   extract_failure_policy (fun _ => Except.error "boom")
     (fun _ => Except.error "boom")
     [{ schema := wSchemaPlain, chunk_id := 0, total_chunks := 1,
        dependencies := [], priority := "high" }] wSchemaPlain
     (fun _ => ⟨"boom", rfl⟩)⟩

theorem sumCt_append (ct : String → ℕ) (a b : List String) :
    sumCt ct (a ++ b) = sumCt ct a + sumCt ct b := by
  simp [sumCt]

theorem joinSp_sum (ct : String → ℕ) (hct : SpaceAdditive ct) :
    ∀ l : List String, l ≠ [] → ct (joinSp l) = sumCt ct l
  | [], h => absurd rfl h
  | [x], _ => by simp [joinSp, sumCt]
  | x :: y :: r, _ => by
    rw [joinSp, hct x (joinSp (y :: r)), joinSp_sum ct hct (y :: r) (by simp)]
    simp [sumCt]

theorem splitWsAux_no_ws :
    ∀ (l cur : List Char), (∀ c ∈ cur, c.isWhitespace = false) →
      ∀ w ∈ splitWsAux l cur, ∀ c ∈ w, c.isWhitespace = false
  | [], cur, hcur, w, hw => by
    rw [splitWsAux] at hw
    split_ifs at hw with he
    · simp at hw
    · simp only [List.mem_singleton] at hw
      subst hw
      intro c hc
      exact hcur c (by simpa using hc)
  | ch :: rest, cur, hcur, w, hw => by
    rw [splitWsAux] at hw
    split_ifs at hw with hws he
    · exact splitWsAux_no_ws rest [] (by simp) w hw
    · rcases List.mem_cons.mp hw with h1 | h2
      · subst h1
        intro c hc
        exact hcur c (by simpa using hc)
      · exact splitWsAux_no_ws rest [] (by simp) w h2
    · refine splitWsAux_no_ws rest (ch :: cur) ?_ w hw
      intro c hc
      rcases List.mem_cons.mp hc with h1 | h2
      · subst h1
        simpa using hws
      · exact hcur c h2

theorem splitWs_no_space (s : String) :
    ∀ w ∈ splitWs s, (' ' : Char) ∉ w.data := by
  intro w hw
  obtain ⟨l, hl, he⟩ := List.mem_map.mp hw
  have := splitWsAux_no_ws s.data [] (by simp) l hl
  intro hsp
  have hws : (' ' : Char).isWhitespace = false := by
    rw [← he] at hsp
    exact this _ hsp
  simp [Char.isWhitespace] at hws

theorem truncLoop_sum (ct : String → ℕ) (ovT : ℕ) :
    ∀ (ws acc : List String) (cur : ℕ), sumCt ct acc = cur → cur ≤ ovT →
      sumCt ct (truncLoop ct ovT ws acc cur) ≤ ovT
  | [], acc, cur, hsum, hle => by rw [truncLoop, hsum]; exact hle
  | w :: rest, acc, cur, hsum, hle => by
    rw [truncLoop]
    split_ifs with h
    · exact truncLoop_sum ct ovT rest (w :: acc) (cur + ct w)
        (by simp [sumCt] at hsum ⊢; omega) h
    · rw [hsum]; exact hle

theorem overlapIf_bound (ct : String → ℕ) (ovT : ℕ) (hct : SpaceAdditive ct)
    (ovtx : String) :
    (if ct ovtx > ovT then joinSp (truncLoop ct ovT (splitWs ovtx).reverse [] 0)
      else ovtx) = ""
    ∨ ct (if ct ovtx > ovT then
        joinSp (truncLoop ct ovT (splitWs ovtx).reverse [] 0)
      else ovtx) ≤ ovT := by
  split_ifs with hgt
  · cases htr : truncLoop ct ovT (splitWs ovtx).reverse [] 0 with
    | nil => exact Or.inl rfl
    | cons a t =>
      refine Or.inr ?_
      rw [← htr, joinSp_sum ct hct _ (by rw [htr]; simp)]
      exact truncLoop_sum ct ovT _ [] 0 rfl (Nat.zero_le _)
  · exact Or.inr (by omega)

theorem getOverlapText_bound (splitSent : String → List String)
    (ct : String → ℕ) (ovT : ℕ) (hct : SpaceAdditive ct)
    (chunks : List DocChunk) :
    getOverlapText splitSent ct ovT chunks = ""
    ∨ ct (getOverlapText splitSent ct ovT chunks) ≤ ovT := by
  rw [getOverlapText]
  cases chunks.getLast? with
  | none => exact Or.inl rfl
  | some last =>
    exact overlapIf_bound ct ovT hct
      (joinSp (if (splitSent last.text).length ≥ 2 then
        (splitSent last.text).drop ((splitSent last.text).length - 2)
        else splitSent last.text))

theorem getOverlapSentences_spec (cur : List String) :
    (getOverlapSentences cur).length ≤ 2
    ∧ ∀ s ∈ getOverlapSentences cur, s ∈ cur := by
  rw [getOverlapSentences]
  by_cases h1 : cur.length ≤ 2
  · rw [if_pos h1]
    simp
  · rw [if_neg h1]
    by_cases h2 : min 2 (cur.length / 3) > 0
    · rw [if_pos h2]
      constructor
      · simp only [List.length_drop]
        omega
      · intro s hs
        exact List.mem_of_mem_drop hs
    · rw [if_neg h2]
      simp

theorem sumCt_le_two (ct : String → ℕ) (m : ℕ) :
    ∀ l : List String, (∀ s ∈ l, ct s ≤ m) → l.length ≤ 2 →
      sumCt ct l ≤ 2 * m
  | [], _, _ => by simp [sumCt]
  | [a], h, _ => by
    have := h a (by simp)
    simp [sumCt]
    omega
  | [a, b], h, _ => by
    have ha := h a (by simp)
    have hb := h b (by simp)
    simp [sumCt]
    omega
  | a :: b :: c :: r, _, hlen => by simp at hlen

theorem packWords_spec (ct : String → ℕ) (maxT : ℕ) :
    ∀ (words cur chunks : List String),
      (∀ c ∈ chunks, ct c ≤ maxT ∨ (' ' : Char) ∉ c.data) →
      (∀ w ∈ words, (' ' : Char) ∉ w.data) →
      (cur ≠ [] →
        (ct (joinSp cur) ≤ maxT ∨ ∃ w, cur = [w] ∧ (' ' : Char) ∉ w.data)) →
      ∀ c ∈ packWords ct maxT words cur chunks,
        ct c ≤ maxT ∨ (' ' : Char) ∉ c.data
  | [], cur, chunks, hch, _, hcur => by
    rw [packWords]
    split_ifs with hne
    · intro c hc
      rcases List.mem_append.mp hc with h1 | h2
      · exact hch c h1
      · simp only [List.mem_singleton] at h2
        subst h2
        rcases hcur hne with h | ⟨w, hw, hsp⟩
        · exact Or.inl h
        · right
          rw [hw]
          exact hsp
    · exact hch
  | w :: rest, cur, chunks, hch, hwords, hcur => by
    rw [packWords]
    split_ifs with h1 h2
    · refine packWords_spec ct maxT rest (cur ++ [w]) chunks hch
        (fun x hx => hwords x (by simp [hx])) ?_
      intro _
      exact Or.inl h1
    · refine packWords_spec ct maxT rest [w] (chunks ++ [joinSp cur]) ?_
        (fun x hx => hwords x (by simp [hx])) ?_
      · intro c hc
        rcases List.mem_append.mp hc with hc1 | hc2
        · exact hch c hc1
        · simp only [List.mem_singleton] at hc2
          subst hc2
          rcases hcur h2 with h | ⟨x, hx, hsp⟩
          · exact Or.inl h
          · right
            rw [hx]
            exact hsp
      · intro _
        exact Or.inr ⟨w, rfl, hwords w (by simp)⟩
    · refine packWords_spec ct maxT rest [w] chunks hch
        (fun x hx => hwords x (by simp [hx])) ?_
      intro _
      exact Or.inr ⟨w, rfl, hwords w (by simp)⟩

theorem splitOversizedGo_spec (clauseSplit : ℕ → String → List String)
    (ct : String → ℕ) (sentence : String) (maxT : ℕ) :
    ∀ patterns, ∀ c ∈ splitOversizedGo clauseSplit ct sentence maxT patterns,
      ct c ≤ maxT ∨ (' ' : Char) ∉ c.data
  | [] => by
    rw [splitOversizedGo]
    exact packWords_spec ct maxT (splitWs sentence) [] []
      (by simp) (splitWs_no_space sentence) (fun h => absurd rfl h)
  | i :: restP => by
    simp only [splitOversizedGo]
    split_ifs with h1 h2
    · intro c hc
      exact Or.inl (by simpa using (List.all_eq_true.mp h2) c hc)
    · exact splitOversizedGo_spec clauseSplit ct sentence maxT restP
    · exact splitOversizedGo_spec clauseSplit ct sentence maxT restP

theorem subsFold_spec (ct : String → ℕ) (bound : ℕ) :
    ∀ (subs : List String) (acc : List DocChunk × ℕ × Int),
      (∀ c ∈ acc.1, c.token_count ≤ bound ∨ (' ' : Char) ∉ c.text.data) →
      (∀ sub ∈ subs, ct sub ≤ bound ∨ (' ' : Char) ∉ sub.data) →
      ∀ c ∈ (subs.foldl
        (fun (acc : List DocChunk × ℕ × Int) sub =>
          (acc.1 ++ [{ text := sub, chunk_id := acc.2.1, start_pos := acc.2.2,
                       end_pos := acc.2.2 + (sub.length : Int),
                       token_count := ct sub, sentence_count := 1 }],
           acc.2.1 + 1, acc.2.2 + (sub.length : Int))) acc).1,
        c.token_count ≤ bound ∨ (' ' : Char) ∉ c.text.data
  | [], acc, hacc, _ => hacc
  | sub :: rest, acc, hacc, hsubs => by
    rw [List.foldl_cons]
    refine subsFold_spec ct bound rest _ ?_ (fun x hx => hsubs x (by simp [hx]))
    intro c hc
    rcases List.mem_append.mp hc with h1 | h2
    · exact hacc c h1
    · simp only [List.mem_singleton] at h2
      subst h2
      rcases hsubs sub (by simp) with h | h
      · exact Or.inl h
      · exact Or.inr h

theorem chunkDocLoop_bound (splitSent : String → List String)
    (clauseSplit : ℕ → String → List String) (ct : String → ℕ)
    (maxT ovT : ℕ) (hct : SpaceAdditive ct) :
    ∀ (sentences : List String) (chunks : List DocChunk) (cur : List String)
      (curTok cid : ℕ) (pos : Int),
      (∀ c ∈ chunks,
        c.token_count ≤ 3 * maxT + ovT ∨ (' ' : Char) ∉ c.text.data) →
      (∀ s ∈ cur, ct s ≤ maxT) →
      curTok = sumCt ct cur →
      curTok ≤ 3 * maxT →
      ∀ c ∈ chunkDocLoop splitSent clauseSplit ct maxT ovT sentences chunks
          cur curTok cid pos,
        c.token_count ≤ 3 * maxT + ovT ∨ (' ' : Char) ∉ c.text.data
  | [], chunks, cur, curTok, cid, pos => by
    intro hch hcur hsum hbound
    simp only [chunkDocLoop]
    by_cases hne : cur ≠ []
    · rw [if_pos hne]
      intro c hc
      rcases List.mem_append.mp hc with h1 | h2
      · exact hch c h1
      · simp only [List.mem_singleton] at h2
        subst h2
        left
        show ct (if getOverlapText splitSent ct ovT chunks ≠ "" then
            getOverlapText splitSent ct ovT chunks ++ " " ++ joinSp cur
          else joinSp cur) ≤ 3 * maxT + ovT
        have hcurct : ct (joinSp cur) ≤ 3 * maxT := by
          rw [joinSp_sum ct hct cur hne, ← hsum]
          exact hbound
        by_cases hov : getOverlapText splitSent ct ovT chunks = ""
        · rw [if_neg (fun hC => hC hov)]
          omega
        · rw [if_pos hov, hct]
          have hovb : ct (getOverlapText splitSent ct ovT chunks) ≤ ovT := by
            rcases getOverlapText_bound splitSent ct ovT hct chunks with h | h
            · exact absurd h hov
            · exact h
          omega
    · rw [if_neg hne]
      exact hch
  | s :: rest, chunks, cur, curTok, cid, pos => by
    intro hch hcur hsum hbound
    simp only [chunkDocLoop]
    by_cases hst : ct s > maxT
    · rw [if_pos hst]
      by_cases hne : cur ≠ []
      · rw [if_pos hne]
        dsimp only
        refine chunkDocLoop_bound splitSent clauseSplit ct maxT ovT hct rest
          _ [] 0 _ _ ?_ (by simp) rfl (by omega)
        refine subsFold_spec ct (3 * maxT + ovT) _ _ ?_ ?_
        · intro c hc
          rcases List.mem_append.mp hc with h1 | h2
          · exact hch c h1
          · simp only [List.mem_singleton] at h2
            subst h2
            left
            show curTok ≤ 3 * maxT + ovT
            omega
        · intro sub hsub
          rcases splitOversizedGo_spec clauseSplit ct s maxT [0, 1, 2, 3, 4]
            sub hsub with h | h
          · exact Or.inl (by omega)
          · exact Or.inr h
      · rw [if_neg hne]
        dsimp only
        refine chunkDocLoop_bound splitSent clauseSplit ct maxT ovT hct rest
          _ [] 0 _ _ ?_ (by simp) rfl (by omega)
        refine subsFold_spec ct (3 * maxT + ovT) _ _ hch ?_
        intro sub hsub
        rcases splitOversizedGo_spec clauseSplit ct s maxT [0, 1, 2, 3, 4]
          sub hsub with h | h
        · exact Or.inl (by omega)
        · exact Or.inr h
    · rw [if_neg hst]
      by_cases hfl : curTok + ct s > maxT ∧ cur ≠ []
      · rw [if_pos hfl]
        dsimp only
        have hovsspec := getOverlapSentences_spec cur
        refine chunkDocLoop_bound splitSent clauseSplit ct maxT ovT hct rest
          _ (getOverlapSentences cur ++ [s]) _ _ _ ?_ ?_ ?_ ?_
        · intro c hc
          rcases List.mem_append.mp hc with h1 | h2
          · exact hch c h1
          · simp only [List.mem_singleton] at h2
            subst h2
            left
            show ct (if getOverlapText splitSent ct ovT chunks ≠ "" then
                getOverlapText splitSent ct ovT chunks ++ " " ++ joinSp cur
              else joinSp cur) ≤ 3 * maxT + ovT
            have hcurct : ct (joinSp cur) ≤ 3 * maxT := by
              rw [joinSp_sum ct hct cur hfl.2, ← hsum]
              exact hbound
            by_cases hov : getOverlapText splitSent ct ovT chunks = ""
            · rw [if_neg (fun hC => hC hov)]
              omega
            · rw [if_pos hov, hct]
              have hovb : ct (getOverlapText splitSent ct ovT chunks) ≤ ovT := by
                rcases getOverlapText_bound splitSent ct ovT hct chunks
                  with h | h
                · exact absurd h hov
                · exact h
              omega
        · intro x hx
          rcases List.mem_append.mp hx with h1 | h2
          · exact hcur x (hovsspec.2 x h1)
          · simp only [List.mem_singleton] at h2
            subst h2
            omega
        · rw [sumCt_append]
          have hs1 : sumCt ct [s] = ct s := by simp [sumCt]
          rw [hs1]
        · have hovb : sumCt ct (getOverlapSentences cur) ≤ 2 * maxT :=
            sumCt_le_two ct maxT _ (fun x hx => hcur x (hovsspec.2 x hx))
              hovsspec.1
          omega
      · rw [if_neg hfl]
        dsimp only
        refine chunkDocLoop_bound splitSent clauseSplit ct maxT ovT hct rest
          _ (cur ++ [s]) _ _ _ hch ?_ ?_ ?_
        · intro x hx
          rcases List.mem_append.mp hx with h1 | h2
          · exact hcur x h1
          · simp only [List.mem_singleton] at h2
            subst h2
            omega
        · rw [sumCt_append]
          have hs1 : sumCt ct [s] = ct s := by simp [sumCt]
          rw [hs1, hsum]
        · rcases not_and_or.mp hfl with h | h
          · omega
          · have hcur0 : cur = [] := by
              by_contra hc
              exact h hc
            rw [hcur0] at hsum
            have hz : curTok = 0 := by simpa [sumCt] using hsum
            omega

theorem spaceCt_additive : SpaceAdditive spaceCt := by
  intro a b
  show ((a ++ " " ++ b).data.count ' ') + 1
      = (a.data.count ' ' + 1) + (b.data.count ' ' + 1)
  rw [data_append, data_append]
  have hsp : (" " : String).data = [' '] := rfl
  rw [hsp]
  simp [List.count_append]
  omega

/-- C6 (amended): for every space-additive token counter, every sentence
splitter, every clause splitter and every input text, each chunk recorded by
chunk_document has token_count at most 3 * max_tokens + overlap_tokens, or
contains no space at all (the single oversized-word fallback chunk).  The
configured budget max_tokens itself is exceeded: an overlap prefix is
prepended after the size check and the recorded count is recomputed on the
prefixed text, and a chunk may open with up to two carried-over overlap
sentences before the size check applies, so only the 3x+overlap bound holds
(the unamended claim is refuted by doc_chunk_token_budget_counterexample). -/
theorem doc_chunk_token_budget (splitSent : String → List String)
    (clauseSplit : ℕ → String → List String) (ct : String → ℕ)
    (maxT ovT : ℕ) (text : String) (hct : SpaceAdditive ct) :
    ∀ c ∈ chunkDocument splitSent clauseSplit ct maxT ovT text,
      c.token_count ≤ 3 * maxT + ovT ∨ (' ' : Char) ∉ c.text.data :=
  chunkDocLoop_bound splitSent clauseSplit ct maxT ovT hct (splitSent text)
    [] [] 0 0 0 (by simp) (by simp) rfl (by omega)

/-- C6 counterexample to the unamended claim: with a word-counting tokenizer,
budget 4 and overlap budget 4, the text below yields a middle chunk that is
not an oversized-word fallback (it has the has_overlap key) whose recorded
token_count is 6 > 4: the two overlap sentences prepended from the previous
chunk are counted against no budget check. -/
theorem doc_chunk_token_budget_counterexample :
    ∃ c ∈ chunkDocument demoSplit (fun _ s => [s]) spaceCt 4 4
        "Aaaa bbbb cccc. Dddd eeee ffff. Gggg hhhh iiii.",
      c.has_overlap = some true ∧ 4 < c.token_count := by
  decide

/-- Witness: the C6 theorem applied to the word-counting tokenizer (additivity
discharged by spaceCt_additive) on a concrete text. -/
theorem doc_chunk_token_budget_witness :
    SpaceAdditive spaceCt
    ∧ ∀ c ∈ chunkDocument demoSplit (fun _ s => [s]) spaceCt 4 4
          "Aaaa bbbb cccc. Dddd eeee ffff. Gggg hhhh iiii.",
        c.token_count ≤ 3 * 4 + 4 ∨ (' ' : Char) ∉ c.text.data :=
  ⟨spaceCt_additive,
   doc_chunk_token_budget demoSplit (fun _ s => [s]) spaceCt 4 4
     "Aaaa bbbb cccc. Dddd eeee ffff. Gggg hhhh iiii." spaceCt_additive⟩
